import Mathlib

/-!
Verification of the ARRSAC sample-consensus engine (`src/lib.rs`).

Shallow embedding conventions:
* Rust `f32`/`f64` values are modelled by `Flt`: exact rationals extended with
  `nan` and signed infinities.  Multiplication, division, subtraction and the
  strict order follow IEEE-754 sign/NaN semantics, while finite arithmetic is
  exact (no rounding, no overflow).
* The RNG (`rand_core::RngCore`) is a stream of 32-bit words with a cursor.
* Machine integers are `Nat` with explicit `% 2 ^ 32` where the source casts.
* Panics (`panic!`, slice indexing, `unwrap`, `% 0`) and the fuel needed for
  the unbounded rejection-sampling / winnowing loops are modelled with
  `Except Err`.
* `sort_unstable_by_key(Reverse count)` is modelled by a deterministic stable
  insertion sort, descending by inlier count.
-/

/-- Kernel-computable product of two rationals (`Rat.mul` itself is
irreducible, which would block `decide`-based evaluation of concrete runs). -/
def qmul (a b : ℚ) : ℚ := mkRat (a.num * b.num) (a.den * b.den)

/-- Kernel-computable difference of two rationals. -/
def qsub (a b : ℚ) : ℚ := mkRat (a.num * b.den - b.num * a.den) (a.den * b.den)

/-- Kernel-computable quotient of two rationals. -/
def qdiv (a b : ℚ) : ℚ :=
  if 0 ≤ b.num then mkRat (a.num * b.den) (a.den * b.num.toNat)
  else mkRat (-(a.num * b.den)) (a.den * (-b.num).toNat)

/-- Model of an IEEE-754 floating point value: `nan`, the two infinities, or a
finite value represented exactly as a rational. -/
inductive Flt where
  | nan : Flt
  | pinf : Flt
  | ninf : Flt
  | fin : ℚ → Flt
deriving DecidableEq

/-- IEEE multiplication on the float model: `nan` is absorbing, infinities
multiply by sign, `0 * inf = nan`; finite products are exact. -/
def Flt.mul : Flt → Flt → Flt
  | .nan, _ => .nan
  | _, .nan => .nan
  | .pinf, .pinf => .pinf
  | .pinf, .ninf => .ninf
  | .ninf, .pinf => .ninf
  | .ninf, .ninf => .pinf
  | .pinf, .fin q => if q = 0 then .nan else if 0 < q then .pinf else .ninf
  | .fin q, .pinf => if q = 0 then .nan else if 0 < q then .pinf else .ninf
  | .ninf, .fin q => if q = 0 then .nan else if 0 < q then .ninf else .pinf
  | .fin q, .ninf => if q = 0 then .nan else if 0 < q then .ninf else .pinf
  | .fin a, .fin b => .fin (qmul a b)

/-- IEEE division on the float model (`+0` semantics for the zero divisor):
`x / 0` is `nan` when `x = 0` and a signed infinity otherwise. -/
def Flt.div : Flt → Flt → Flt
  | .nan, _ => .nan
  | _, .nan => .nan
  | .pinf, .pinf => .nan
  | .pinf, .ninf => .nan
  | .ninf, .pinf => .nan
  | .ninf, .ninf => .nan
  | .pinf, .fin q => if 0 ≤ q then .pinf else .ninf
  | .ninf, .fin q => if 0 ≤ q then .ninf else .pinf
  | .fin _, .pinf => .fin 0
  | .fin _, .ninf => .fin 0
  | .fin a, .fin b =>
    if b = 0 then (if a = 0 then .nan else if 0 < a then .pinf else .ninf)
    else .fin (qdiv a b)

/-- IEEE subtraction on the float model. -/
def Flt.sub : Flt → Flt → Flt
  | .nan, _ => .nan
  | _, .nan => .nan
  | .pinf, .pinf => .nan
  | .ninf, .ninf => .nan
  | .pinf, _ => .pinf
  | .ninf, _ => .ninf
  | .fin _, .pinf => .ninf
  | .fin _, .ninf => .pinf
  | .fin a, .fin b => .fin (qsub a b)

/-- IEEE strict order `<` on the float model; any comparison with `nan` is
false. -/
def Flt.lt : Flt → Flt → Bool
  | .nan, _ => false
  | _, .nan => false
  | .pinf, _ => false
  | .ninf, .ninf => false
  | .ninf, _ => true
  | .fin _, .pinf => true
  | .fin _, .ninf => false
  | .fin a, .fin b => decide (a < b)

/-- NaN test on the float model. -/
def Flt.isNaN : Flt → Bool
  | .nan => true
  | _ => false

/-- Rust `as usize` cast of a float: truncation toward zero, saturating at the
`usize` bounds, with `nan` mapped to zero. -/
def Flt.toUsize : Flt → ℕ
  | .nan => 0
  | .pinf => 2 ^ 64 - 1
  | .ninf => 0
  | .fin q => if q.num < 0 then 0 else min (q.num.tdiv q.den).toNat (2 ^ 64 - 1)

/-- The RNG handle: a stream of words with a cursor, producing uniform 32-bit
words on demand (`rand_core::RngCore`). -/
structure Rng where
  stream : ℕ → ℕ
  idx : ℕ

/-- One `next_u32` call: read the current word reduced mod `2 ^ 32` and advance
the cursor. -/
def Rng.next (r : Rng) : ℕ × Rng :=
  (r.stream r.idx % 2 ^ 32, ⟨r.stream, r.idx + 1⟩)

/-- Abnormal outcomes of the embedded code: a Rust panic, exhaustion of the
fuel bounding the rejection-sampling loop, or exhaustion of the fuel bounding
the outer winnowing loop. -/
inductive Err where
  | panic : Err
  | innerFuel : Err
  | outerFuel : Err
deriving DecidableEq

/-- Estimator context: the collaborating `Estimator` (with its `MIN_SAMPLES`
constant and `estimate` producer) and the `Model` residual function. -/
structure EstCtx (Data M : Type) where
  MIN_SAMPLES : ℕ
  estimate : List Data → List M
  residual : M → Data → Flt

/-- The immutable configuration fields of the `Arrsac` struct. -/
structure Arrsac where
  max_candidate_hypotheses : ℕ
  block_size : ℕ
  likelihood_ratio_threshold : Flt
  initial_epsilon : Flt
  initial_delta : Flt
  inlier_threshold : Flt

/-- The mutable fields of the `Arrsac` struct: the RNG handle and the scratch
buffer of sampled indices. -/
structure ArrsacState where
  rng : Rng
  random_samples : List ℕ

/-- One rejection-sampling draw in `populate_samples`: compute
`mul = u64(next_u32()) * u64(len)`, accept when the low 32 bits reach the
threshold and the index `mul >> 32` is not already in the buffer; recurse
otherwise, bounded by fuel. -/
def sample_one (len32 threshold : ℕ) (acc : List ℕ) : Rng → ℕ → Except Err (ℕ × Rng)
  | _, 0 => .error .innerFuel
  | rng, fuel + 1 =>
    let rr := rng.next
    let mul := rr.1 * len32
    if threshold ≤ mul % 2 ^ 32 then
      let s := mul / 2 ^ 32
      if acc.contains s then sample_one len32 threshold acc rr.2 fuel
      else .ok (s, rr.2)
    else sample_one len32 threshold acc rr.2 fuel

/-- The outer draw loop of `populate_samples`: push `num` accepted indices onto
the buffer. -/
def populate_loop (len32 threshold : ℕ) (fuel : ℕ) :
    List ℕ → Rng → ℕ → Except Err (List ℕ × Rng)
  | acc, rng, 0 => .ok (acc, rng)
  | acc, rng, num + 1 =>
    match sample_one len32 threshold acc rng fuel with
    | .error e => .error e
    | .ok (s, rng') => populate_loop len32 threshold fuel (acc ++ [s]) rng' num

/-- `Arrsac::populate_samples`: panic when `len < num`; cast `len` to `u32`;
compute the rejection threshold `len.wrapping_neg() % len` (a panicking
division by zero when the cast truncates `len` to 0); clear the buffer and
fill it with `num` draws. -/
def populate_samples (st : ArrsacState) (num len : ℕ) (fuel : ℕ) :
    Except Err ArrsacState :=
  if len < num then .error .panic
  else
    let len32 := len % 2 ^ 32
    if len32 = 0 then .error .panic
    else
      let threshold := (2 ^ 32 - len32) % 2 ^ 32 % len32
      match populate_loop len32 threshold fuel [] st.rng num with
      | .error e => .error e
      | .ok (samples, rng') => .ok ⟨rng', samples⟩

/-- Positional lookup of each sampled index (`data.clone().nth(ix).unwrap()`);
`none` models the `unwrap` panic on an out-of-range index. -/
def select_data {Data : Type} (data : List Data) : List ℕ → Option (List Data)
  | [] => some []
  | ix :: rest =>
    match data.get? ix with
    | none => none
    | some d =>
      match select_data data rest with
      | none => none
      | some ds => some (d :: ds)

/-- `Arrsac::generate_random_hypotheses`: sample `MIN_SAMPLES` indices from the
whole dataset and hand the selected observations to the estimator. -/
def generate_random_hypotheses {Data M : Type} (ctx : EstCtx Data M)
    (st : ArrsacState) (data : List Data) (fuel : ℕ) :
    Except Err (List M × ArrsacState) :=
  match populate_samples st ctx.MIN_SAMPLES data.length fuel with
  | .error e => .error e
  | .ok st' =>
    match select_data data st'.random_samples with
    | none => .error .panic
    | some sel => .ok (ctx.estimate sel, st')

/-- Mapping of sampled subset positions to observations in
`generate_random_hypotheses_subset`: `subset[ix]` (a panicking slice index)
followed by `data.clone().nth(subset[ix]).unwrap()`. -/
def select_subset_data {Data : Type} (data : List Data) (subset : List ℕ) :
    List ℕ → Option (List Data)
  | [] => some []
  | ix :: rest =>
    match subset.get? ix with
    | none => none
    | some j =>
      match data.get? j with
      | none => none
      | some d =>
        match select_subset_data data subset rest with
        | none => none
        | some ds => some (d :: ds)

/-- `Arrsac::generate_random_hypotheses_subset`: sample `MIN_SAMPLES` indices
into the subset, take the scratch buffer (leaving it empty), and hand the
selected observations to the estimator. -/
def generate_random_hypotheses_subset {Data M : Type} (ctx : EstCtx Data M)
    (st : ArrsacState) (data : List Data) (subset : List ℕ) (fuel : ℕ) :
    Except Err (List M × ArrsacState) :=
  match populate_samples st ctx.MIN_SAMPLES subset.length fuel with
  | .error e => .error e
  | .ok st' =>
    match select_subset_data data subset st'.random_samples with
    | none => .error .panic
    | some sel => .ok (ctx.estimate sel, ⟨st'.rng, []⟩)

/-- The accumulating loop of `Arrsac::asprt`: multiply the likelihood ratio by
`positive_likelihood_ratio` on an inlier (counting it) and by
`negative_likelihood_ratio` otherwise, rejecting as soon as the ratio exceeds
the threshold or becomes NaN; at the end accept iff the inlier count reaches
`minimum_samples`. -/
def asprt_go {Data M : Type} (ctx : EstCtx Data M) (a : Arrsac) (m : M)
    (plr nlr : Flt) (ms : ℕ) : List Data → Flt → ℕ → Option ℕ
  | [], _, inl => if ms ≤ inl then some inl else none
  | d :: ds, L, inl =>
    let isIn := Flt.lt (ctx.residual m d) a.inlier_threshold
    let L' := L.mul (if isIn then plr else nlr)
    let inl' := if isIn then inl + 1 else inl
    if Flt.lt a.likelihood_ratio_threshold L' || L'.isNaN then none
    else asprt_go ctx a m plr nlr ms ds L' inl'

/-- `Arrsac::asprt` (Algorithm 1, sequential probability ratio test): start the
likelihood ratio at `1.0` and run the accumulating loop over the data. -/
def asprt {Data M : Type} (ctx : EstCtx Data M) (a : Arrsac) (data : List Data)
    (m : M) (plr nlr : Flt) (ms : ℕ) : Option ℕ :=
  asprt_go ctx a m plr nlr ms data (.fin 1) 0

/-- `Arrsac::count_inliers`: the number of observations whose residual is
strictly below the inlier threshold. -/
def count_inliers {Data M : Type} (ctx : EstCtx Data M) (a : Arrsac)
    (data : List Data) (m : M) : ℕ :=
  (data.filter (fun d => Flt.lt (ctx.residual m d) a.inlier_threshold)).length

/-- `Arrsac::inliers`: the positional indices of the observations whose
residual is strictly below the inlier threshold, in input order. -/
def inliers {Data M : Type} (ctx : EstCtx Data M) (a : Arrsac)
    (data : List Data) (m : M) : List ℕ :=
  ((data.enum.filter
    (fun p => Flt.lt (ctx.residual m p.2) a.inlier_threshold)).map Prod.fst)

/-- The likelihood-ratio pair derived from the current estimates:
`positive_likelihood_ratio = δ / ε` and
`negative_likelihood_ratio = (1 - δ) / (1 - ε)`. -/
def likelihood_ratios (epsilon delta : Flt) : Flt × Flt :=
  (delta.div epsilon, ((Flt.fin 1).sub delta).div ((Flt.fin 1).sub epsilon))

/-- The ε/δ update on an accepted best-so-far hypothesis (and the per-block
update of the winnowing loop): `ε ← inliers / datapoints`, then clamp
`δ ← ε * 0.75` whenever `δ > ε * 0.75`. -/
def epsilon_delta_accept (delta : Flt) (inl m0 : ℕ) : Flt × Flt :=
  let epsilon := Flt.div (.fin inl) (.fin m0)
  let delta' :=
    if Flt.lt (epsilon.mul (.fin (mkRat 3 4))) delta then epsilon.mul (.fin (mkRat 3 4))
    else delta
  (epsilon, delta')

/-- The ε/δ update on a rejected hypothesis during the initial phase:
`δ ← total_delta_inliers / (current_delta_estimations * datapoints)`, then if
`δ > ε` raise `ε ← δ * 1.25` capped at `1.0`. -/
def epsilon_delta_reject (epsilon : Flt) (total cnt m0 : ℕ) : Flt × Flt :=
  let delta := Flt.div (.fin total) (.fin ((cnt * m0 : ℕ) : ℚ))
  let epsilon' :=
    if Flt.lt epsilon delta then
      (if Flt.lt (.fin 1) (delta.mul (.fin (mkRat 5 4))) then .fin 1
       else delta.mul (.fin (mkRat 5 4)))
    else epsilon
  (epsilon', delta)

/-- The mutable local state of `Arrsac::initial_hypotheses`. -/
structure InitState (M : Type) where
  hypotheses : List (M × ℕ)
  best_inliers : ℕ
  epsilon : Flt
  delta : Flt
  positive_likelihood_ratio : Flt
  negative_likelihood_ratio : Flt
  current_delta_estimations : ℕ
  total_delta_inliers : ℕ
  best_inlier_indices : List ℕ
  found_usable_hypothesis : Bool

/-- Processing of one generated model inside `initial_hypotheses`: run the
ASPRT test over the first `initial_datapoints` observations; on acceptance
with a new best support, update ε/δ, the likelihood ratios and the best
inlier indices, then push the hypothesis; on rejection, fold the model's
inlier count into the δ estimation. -/
def process_model {Data M : Type} (ctx : EstCtx Data M) (a : Arrsac)
    (data : List Data) (initial_datapoints : ℕ) (s : InitState M) (m : M) :
    InitState M :=
  match asprt ctx a (data.take initial_datapoints) m
      s.positive_likelihood_ratio s.negative_likelihood_ratio
      ctx.MIN_SAMPLES with
  | some inl =>
    let s' :=
      if s.best_inliers < inl then
        let ed := epsilon_delta_accept s.delta inl initial_datapoints
        let lr := likelihood_ratios ed.1 ed.2
        { s with best_inliers := inl, epsilon := ed.1, delta := ed.2,
                 positive_likelihood_ratio := lr.1,
                 negative_likelihood_ratio := lr.2,
                 best_inlier_indices := inliers ctx a data m,
                 found_usable_hypothesis := true }
      else s
    { s' with hypotheses := s'.hypotheses ++ [(m, inl)] }
  | none =>
    let total := s.total_delta_inliers
        + count_inliers ctx a (data.take initial_datapoints) m
    let cnt := s.current_delta_estimations + 1
    let ed := epsilon_delta_reject s.epsilon total cnt initial_datapoints
    let lr := likelihood_ratios ed.1 ed.2
    { s with total_delta_inliers := total, current_delta_estimations := cnt,
             epsilon := ed.1, delta := ed.2,
             positive_likelihood_ratio := lr.1,
             negative_likelihood_ratio := lr.2 }

/-- One iteration of the `initial_hypotheses` loop: generate a batch of
candidate models (from the best-hypothesis inlier subset once a usable
hypothesis was found, otherwise from the whole dataset) and process each in
order. -/
def initial_iter {Data M : Type} (ctx : EstCtx Data M) (a : Arrsac)
    (data : List Data) (initial_datapoints fuel : ℕ) (st : ArrsacState)
    (s : InitState M) : Except Err (ArrsacState × InitState M) :=
  match (if s.found_usable_hypothesis then
          generate_random_hypotheses_subset ctx st data s.best_inlier_indices
            fuel
         else generate_random_hypotheses ctx st data fuel) with
  | .error e => .error e
  | .ok (models, st') =>
    .ok (st', models.foldl (process_model ctx a data initial_datapoints) s)

/-- The `max_candidate_hypotheses`-fold iteration of `initial_hypotheses`. -/
def initial_loop {Data M : Type} (ctx : EstCtx Data M) (a : Arrsac)
    (data : List Data) (initial_datapoints fuel : ℕ) :
    ℕ → ArrsacState → InitState M → Except Err (ArrsacState × InitState M)
  | 0, st, s => .ok (st, s)
  | n + 1, st, s =>
    match initial_iter ctx a data initial_datapoints fuel st s with
    | .error e => .error e
    | .ok (st', s') =>
      initial_loop ctx a data initial_datapoints fuel n st' s'

/-- `Arrsac::initial_hypotheses` (Algorithm 3): bootstrap the hypothesis pool
from the first `min(block_size, n)` observations, returning the pool together
with the final ε and δ estimates. -/
def initial_hypotheses {Data M : Type} (ctx : EstCtx Data M) (a : Arrsac)
    (st : ArrsacState) (data : List Data) (fuel : ℕ) :
    Except Err (List (M × ℕ) × Flt × Flt × ArrsacState) :=
  let initial_datapoints := min a.block_size data.length
  let lr := likelihood_ratios a.initial_epsilon a.initial_delta
  let s0 : InitState M :=
    { hypotheses := []
      best_inliers := (a.initial_epsilon.mul (.fin initial_datapoints)).toUsize
      epsilon := a.initial_epsilon
      delta := a.initial_delta
      positive_likelihood_ratio := lr.1
      negative_likelihood_ratio := lr.2
      current_delta_estimations := 0
      total_delta_inliers := 0
      best_inlier_indices := []
      found_usable_hypothesis := false }
  match initial_loop ctx a data initial_datapoints fuel
      a.max_candidate_hypotheses st s0 with
  | .error e => .error e
  | .ok (st', s) => .ok (s.hypotheses, s.epsilon, s.delta, st')

/-- Insertion step of the deterministic stable descending sort modelling
`sort_unstable_by_key(Reverse inliers)`: the inserted (earlier) element goes
before every element with the same or a smaller count. -/
def insertDesc {M : Type} (x : M × ℕ) : List (M × ℕ) → List (M × ℕ)
  | [] => [x]
  | y :: ys => if y.2 ≤ x.2 then x :: y :: ys else y :: insertDesc x ys

/-- Deterministic stable sort of the hypothesis pool, descending by inlier
count. -/
def sortDesc {M : Type} (l : List (M × ℕ)) : List (M × ℕ) :=
  l.foldr insertDesc []

/-- The per-block scoring loop of `model_inliers`: walk the `block_size`
sample indices of the current block; if a sample does not exist, signal the
outer-loop break (`true`); otherwise increment the running inlier count of
every hypothesis the sample supports. -/
def score_samples {Data M : Type} (ctx : EstCtx Data M) (a : Arrsac)
    (data : List Data) : List (M × ℕ) → ℕ → ℕ → List (M × ℕ) × Bool
  | hyps, _, 0 => (hyps, false)
  | hyps, sample, k + 1 =>
    match data.get? sample with
    | none => (hyps, true)
    | some d =>
      score_samples ctx a data
        (hyps.map (fun mc =>
          if Flt.lt (ctx.residual mc.1 d) a.inlier_threshold then
            (mc.1, mc.2 + 1)
          else mc))
        (sample + 1) k

/-- The per-block hypothesis generation loop of `model_inliers`: up to
`max_candidate_hypotheses` estimator calls over the best-hypothesis inlier
subset, appending every model the ASPRT test accepts on the current data
prefix. -/
def gen_loop {Data M : Type} (ctx : EstCtx Data M) (a : Arrsac)
    (data : List Data) (inls : List ℕ) (plr nlr : Flt) (stop fuel : ℕ) :
    ℕ → List (M × ℕ) → ArrsacState →
    Except Err (List (M × ℕ) × ArrsacState)
  | 0, hyps, st => .ok (hyps, st)
  | k + 1, hyps, st =>
    match generate_random_hypotheses_subset ctx st data inls fuel with
    | .error e => .error e
    | .ok (models, st') =>
      let accepted := models.filterMap (fun m =>
        (asprt ctx a (data.take stop) m plr nlr ctx.MIN_SAMPLES).map
          (fun c => (m, c)))
      gen_loop ctx a data inls plr nlr stop fuel k (hyps ++ accepted) st'

/-- Rust `Iterator::max_by_key` on the pool: the hypothesis with the maximal
inlier count, the last one on ties. -/
def max_by_last {M : Type} (hyps : List (M × ℕ)) : Option (M × ℕ) :=
  hyps.foldl
    (fun acc x =>
      match acc with
      | none => some x
      | some y => if y.2 ≤ x.2 then some x else some y)
    none

/-- The progressive winnowing loop of `model_inliers` (`'outer: for block in
1..`): per block, score the pool on the block's samples (breaking out when the
data is exhausted), update ε/δ from the best hypothesis, regenerate
hypotheses from its global inlier set, then sort the pool and truncate it to
`max_candidate_hypotheses >> block`, exiting when at most one hypothesis
remains.  The outer fuel only bounds the iteration count. -/
def winnow_loop {Data M : Type} (ctx : EstCtx Data M) (a : Arrsac)
    (data : List Data) (fuel : ℕ) :
    ℕ → ℕ → Flt → List (M × ℕ) → ArrsacState →
    Except Err (List (M × ℕ) × ArrsacState)
  | 0, _, _, _, _ => .error .outerFuel
  | ofuel + 1, block, delta, hyps, st =>
    let samples_up_to_beginning_of_block := block * a.block_size
    let samples_up_to_end_of_block :=
      samples_up_to_beginning_of_block + a.block_size
    match score_samples ctx a data hyps samples_up_to_beginning_of_block
        a.block_size with
    | (hyps', true) => .ok (hyps', st)
    | (hyps', false) =>
      match hyps' with
      | [] => .error .panic
      | (m0, c0) :: rest =>
        let ed := epsilon_delta_accept delta c0 samples_up_to_end_of_block
        let lr := likelihood_ratios ed.1 ed.2
        let inls := inliers ctx a data m0
        match gen_loop ctx a data inls lr.1 lr.2 samples_up_to_end_of_block
            fuel a.max_candidate_hypotheses ((m0, c0) :: rest) st with
        | .error e => .error e
        | .ok (hyps'', st') =>
          let hyps3 :=
            (sortDesc hyps'').take (a.max_candidate_hypotheses >>> block)
          if hyps3.length ≤ 1 then .ok (hyps3, st')
          else winnow_loop ctx a data fuel ofuel (block + 1) ed.2 hyps3 st'

/-- `Arrsac::model_inliers`: return no result when fewer than `MIN_SAMPLES`
observations exist; bootstrap the pool, sort it and truncate it to
`max_candidate_hypotheses`; return no result when it is empty or the best
hypothesis has at most `MIN_SAMPLES` global inliers; otherwise run the
winnowing loop and return the surviving hypothesis with the maximal count
together with its global inlier indices. -/
def model_inliers {Data M : Type} (ctx : EstCtx Data M) (a : Arrsac)
    (st : ArrsacState) (data : List Data) (fuel ofuel : ℕ) :
    Except Err (Option (M × List ℕ) × ArrsacState) :=
  if data.length < ctx.MIN_SAMPLES then .ok (none, st)
  else
    match initial_hypotheses ctx a st data fuel with
    | .error e => .error e
    | .ok (hyps0, _, delta, st') =>
      let hyps := (sortDesc hyps0).take a.max_candidate_hypotheses
      match hyps with
      | [] => .ok (none, st')
      | (h0, c0) :: rest =>
        if (inliers ctx a data h0).length ≤ ctx.MIN_SAMPLES then
          .ok (none, st')
        else
          match winnow_loop ctx a data fuel ofuel 1 delta ((h0, c0) :: rest)
              st' with
          | .error e => .error e
          | .ok (pool, st'') =>
            match max_by_last pool with
            | none => .ok (none, st'')
            | some w => .ok (some (w.1, inliers ctx a data w.1), st'')

/-- `Arrsac::model` (`Consensus::model`): `model_inliers` with the inlier
indices dropped. -/
def model {Data M : Type} (ctx : EstCtx Data M) (a : Arrsac)
    (st : ArrsacState) (data : List Data) (fuel ofuel : ℕ) :
    Except Err (Option M × ArrsacState) :=
  match model_inliers ctx a st data fuel ofuel with
  | .error e => .error e
  | .ok (r, st') => .ok (r.map Prod.fst, st')

/-- ASPRT as worded by the specification: map the prefix to inlier flags, form
the list of running likelihood-ratio products after each multiplication, and
reject iff some product exceeds the threshold or is NaN, otherwise accept iff
the prefix inlier count reaches `min_samples`. -/
def asprtSpec {Data M : Type} (ctx : EstCtx Data M) (a : Arrsac)
    (data : List Data) (m : M) (plr nlr : Flt) (ms : ℕ) : Option ℕ :=
  let flags := data.map (fun d => Flt.lt (ctx.residual m d) a.inlier_threshold)
  let products :=
    (List.scanl (fun L b => L.mul (if b then plr else nlr)) (Flt.fin 1)
      flags).tail
  if products.any (fun L => Flt.lt a.likelihood_ratio_threshold L || L.isNaN)
  then none
  else
    if ms ≤ count_inliers ctx a data m then some (count_inliers ctx a data m)
    else none

/-- The optional model/inlier pair of a `model_inliers` outcome, disregarding
the final engine state. -/
def resultModel {M : Type}
    (r : Except Err (Option (M × List ℕ) × ArrsacState)) :
    Option (M × List ℕ) :=
  match r with
  | .ok (o, _) => o
  | .error _ => none

/-- The ε/δ estimates of an `initial_hypotheses` outcome, disregarding the
pool and the final engine state. -/
def resultEpsDelta {M : Type}
    (r : Except Err (List (M × ℕ) × Flt × Flt × ArrsacState)) :
    Option (Flt × Flt) :=
  match r with
  | .ok (_, e, d, _) => some (e, d)
  | .error _ => none

/-- The ε/δ invariant claimed by the specification: both are finite with
`0 < δ < ε < 1`. -/
def EpsDeltaStrictInv (epsilon delta : Flt) : Prop :=
  ∃ e d : ℚ, epsilon = .fin e ∧ delta = .fin d ∧ 0 < d ∧ d < e ∧ e < 1

/-- The hypothesis-pool invariant: every pooled hypothesis carries at least
`MIN_SAMPLES` counted inliers, and its count is exactly its inlier count over
the first `p` observations (the prefix it was last evaluated against). -/
def PoolInv {Data M : Type} (ctx : EstCtx Data M) (a : Arrsac)
    (data : List Data) (p : ℕ) (hyps : List (M × ℕ)) : Prop :=
  ∀ mc ∈ hyps, ctx.MIN_SAMPLES ≤ mc.2 ∧
    mc.2 = count_inliers ctx a (data.take p) mc.1

/-- The invariant of the initial-hypothesis phase: every pooled hypothesis
carries its exact inlier count over the first `m0` observations (at least
`MIN_SAMPLES` of them), and once a usable hypothesis is found the best inlier
indices are the global inlier indices of some model, at least `MIN_SAMPLES`
many. -/
def InitInv {Data M : Type} (ctx : EstCtx Data M) (a : Arrsac)
    (data : List Data) (m0 : ℕ) (s : InitState M) : Prop :=
  (∀ mc ∈ s.hypotheses, ctx.MIN_SAMPLES ≤ mc.2 ∧
    mc.2 = count_inliers ctx a (data.take m0) mc.1) ∧
  (s.found_usable_hypothesis = true → ∃ m : M,
    s.best_inlier_indices = inliers ctx a data m ∧
    ctx.MIN_SAMPLES ≤ s.best_inlier_indices.length)

/-- Witness estimator: one sample per model, every observation a perfect
inlier (`residual 0`), always producing model `0`. -/
def ctxAll : EstCtx ℕ ℕ :=
  { MIN_SAMPLES := 1, estimate := fun _ => [0], residual := fun _ _ => .fin 0 }

/-- Witness estimator: one sample per model, every observation an outlier
(`residual 2`), always producing model `0`. -/
def ctxOut : EstCtx ℕ ℕ :=
  { MIN_SAMPLES := 1, estimate := fun _ => [0], residual := fun _ _ => .fin 2 }

/-- Witness estimator requiring two samples per model. -/
def ctxTwo : EstCtx ℕ ℕ :=
  { MIN_SAMPLES := 2, estimate := fun _ => [0], residual := fun _ _ => .fin 0 }

/-- Witness configuration: four candidate hypotheses, block size one. -/
def cfgSmall : Arrsac :=
  { max_candidate_hypotheses := 4
    block_size := 1
    likelihood_ratio_threshold := .fin 10
    initial_epsilon := .fin (mkRat 1 20)
    initial_delta := .fin (mkRat 1 100)
    inlier_threshold := .fin 1 }

/-- Witness configuration: a single candidate hypothesis per batch. -/
def cfgOne : Arrsac :=
  { max_candidate_hypotheses := 1
    block_size := 100
    likelihood_ratio_threshold := .fin 10
    initial_epsilon := .fin (mkRat 1 20)
    initial_delta := .fin (mkRat 1 100)
    inlier_threshold := .fin 1 }

/-- Witness engine state: a constant RNG stream of ones, cursor at zero, empty
scratch buffer. -/
def st0 : ArrsacState := ⟨⟨fun _ => 1, 0⟩, []⟩

theorem scanl_any_eq {α β : Type} (f : β → α → β) (p : β → Bool) (b : β)
    (l : List α) :
    (List.scanl f b l).any p = (p b || ((List.scanl f b l).tail).any p) := by
  cases l <;> simp [List.scanl_cons, List.scanl_nil]

theorem count_inliers_cons {Data M : Type} (ctx : EstCtx Data M) (a : Arrsac)
    (d : Data) (ds : List Data) (m : M) :
    count_inliers ctx a (d :: ds) m =
      (if Flt.lt (ctx.residual m d) a.inlier_threshold then 1 else 0) +
        count_inliers ctx a ds m := by
  simp only [count_inliers, List.filter_cons]
  split <;> simp [Nat.add_comm]

theorem asprt_go_eq_spec {Data M : Type} (ctx : EstCtx Data M) (a : Arrsac)
    (m : M) (plr nlr : Flt) (ms : ℕ) :
    ∀ (ds : List Data) (L : Flt) (c : ℕ),
      asprt_go ctx a m plr nlr ms ds L c =
        if ((List.scanl (fun acc b => acc.mul (if b then plr else nlr)) L
              (ds.map (fun d => Flt.lt (ctx.residual m d)
                a.inlier_threshold))).tail.any
            (fun x => Flt.lt a.likelihood_ratio_threshold x || x.isNaN))
        then none
        else
          if ms ≤ c + count_inliers ctx a ds m then
            some (c + count_inliers ctx a ds m)
          else none
  | [], L, c => by
    simp [asprt_go, count_inliers, List.scanl_nil]
  | d :: ds, L, c => by
    rw [List.map_cons, List.scanl_cons]
    rw [show ([L] ++ List.scanl (fun acc b => acc.mul (if b then plr else nlr))
      (L.mul (if Flt.lt (ctx.residual m d) a.inlier_threshold then plr
        else nlr)) (ds.map (fun x => Flt.lt (ctx.residual m x)
        a.inlier_threshold))).tail = List.scanl
      (fun acc b => acc.mul (if b then plr else nlr))
      (L.mul (if Flt.lt (ctx.residual m d) a.inlier_threshold then plr
        else nlr)) (ds.map (fun x => Flt.lt (ctx.residual m x)
        a.inlier_threshold)) from rfl]
    rw [scanl_any_eq]
    show (if Flt.lt a.likelihood_ratio_threshold _ || Flt.isNaN _ then none
      else asprt_go ctx a m plr nlr ms ds _ _) = _
    by_cases htr : (Flt.lt a.likelihood_ratio_threshold
        (L.mul (if Flt.lt (ctx.residual m d) a.inlier_threshold then plr
          else nlr)) || Flt.isNaN
        (L.mul (if Flt.lt (ctx.residual m d) a.inlier_threshold then plr
          else nlr))) = true
    · simp [htr]
    · simp only [Bool.not_eq_true] at htr
      simp only [htr, Bool.false_or, if_neg (by simp [htr] : ¬ ((Flt.lt
        a.likelihood_ratio_threshold (L.mul (if Flt.lt (ctx.residual m d)
        a.inlier_threshold then plr else nlr)) || Flt.isNaN
        (L.mul (if Flt.lt (ctx.residual m d) a.inlier_threshold then plr
        else nlr))) = true))]
      rw [asprt_go_eq_spec ctx a m plr nlr ms ds _ _]
      rw [count_inliers_cons]
      by_cases hin : Flt.lt (ctx.residual m d) a.inlier_threshold = true
      · simp [hin, Nat.add_assoc]
      · simp only [Bool.not_eq_true] at hin
        simp [hin]

/-- C2: `asprt` is the procedure the specification describes — it maintains a
running likelihood-ratio product starting at `1.0`, multiplied by the positive
ratio on each inlier (counting it) and the negative ratio otherwise, in prefix
order; it rejects exactly when some product exceeds the threshold or is NaN,
and otherwise accepts iff the prefix inlier count reaches `minimum_samples`,
returning that count. -/
theorem asprt_eq_spec {Data M : Type} (ctx : EstCtx Data M) (a : Arrsac)
    (data : List Data) (m : M) (plr nlr : Flt) (ms : ℕ) :
    asprt ctx a data m plr nlr ms = asprtSpec ctx a data m plr nlr ms := by
  rw [asprt, asprt_go_eq_spec, asprtSpec]
  simp

/-- C3: with fewer than `MIN_SAMPLES` observations, `model_inliers` and
`model` return no result, leaving the engine state untouched — the check runs
on entry, before any hypothesis generation touches the RNG or the scratch
buffer. -/
theorem model_insufficient_data {Data M : Type} (ctx : EstCtx Data M)
    (a : Arrsac) (st : ArrsacState) (data : List Data) (fuel ofuel : ℕ)
    (h : data.length < ctx.MIN_SAMPLES) :
    model_inliers ctx a st data fuel ofuel = .ok (none, st) ∧
    model ctx a st data fuel ofuel = .ok (none, st) := by
  have h1 : model_inliers ctx a st data fuel ofuel = .ok (none, st) := by
    simp [model_inliers, h]
  exact ⟨h1, by simp [model, h1]⟩

theorem model_insufficient_data_witness :
    model_inliers ctxTwo cfgSmall st0 [5] 3 3 = .ok (none, st0) ∧
    model ctxTwo cfgSmall st0 [5] 3 3 = .ok (none, st0) :=
  model_insufficient_data ctxTwo cfgSmall st0 [5] 3 3 (by decide)

/-- C8: `model_inliers` and `model` are deterministic — two runs from equal
configurations, equal engine states (RNG included) and equal data sequences
return identical results: the same optional model, the same inlier index
sequence, and the same final state. -/
theorem model_inliers_deterministic {Data M : Type} (ctx : EstCtx Data M)
    (a₁ a₂ : Arrsac) (st₁ st₂ : ArrsacState) (data₁ data₂ : List Data)
    (fuel ofuel : ℕ) (ha : a₁ = a₂) (hst : st₁ = st₂) (hd : data₁ = data₂) :
    model_inliers ctx a₁ st₁ data₁ fuel ofuel =
      model_inliers ctx a₂ st₂ data₂ fuel ofuel ∧
    model ctx a₁ st₁ data₁ fuel ofuel =
      model ctx a₂ st₂ data₂ fuel ofuel := by
  subst ha; subst hst; subst hd; exact ⟨rfl, rfl⟩

theorem model_inliers_deterministic_witness :
    model_inliers ctxAll cfgSmall st0 [5, 7] 10 10 =
      model_inliers ctxAll cfgSmall st0 [5, 7] 10 10 ∧
    model ctxAll cfgSmall st0 [5, 7] 10 10 =
      model ctxAll cfgSmall st0 [5, 7] 10 10 :=
  model_inliers_deterministic ctxAll cfgSmall cfgSmall st0 st0 [5, 7] [5, 7]
    10 10 rfl rfl rfl

theorem pairwise_fst_lt_enumFrom {α : Type} :
    ∀ (n : ℕ) (l : List α),
      (l.enumFrom n).Pairwise (fun p q : ℕ × α => p.1 < q.1)
  | _, [] => by simp
  | n, a :: l => by
    rw [List.enumFrom_cons]
    refine List.Pairwise.cons ?_ (pairwise_fst_lt_enumFrom (n + 1) l)
    intro p hp
    exact lt_of_lt_of_le (Nat.lt_succ_self n) (List.mem_enumFrom hp).1

/-- C5: `inliers` returns exactly the positional indices of the observations
whose residual is strictly below `inlier_threshold`, in input order:
membership is characterized positionally, the returned index sequence is
strictly increasing, every index lies in `[0, n)`, and an observation with a
NaN residual is never included. -/
theorem inliers_characterization {Data M : Type} (ctx : EstCtx Data M)
    (a : Arrsac) (data : List Data) (m : M) :
    (∀ i : ℕ, i ∈ inliers ctx a data m ↔
      ∃ d, data[i]? = some d ∧
        Flt.lt (ctx.residual m d) a.inlier_threshold = true) ∧
    (inliers ctx a data m).Pairwise (· < ·) ∧
    (∀ i ∈ inliers ctx a data m, i < data.length) ∧
    (∀ (i : ℕ) (d : Data), data[i]? = some d → ctx.residual m d = .nan →
      i ∉ inliers ctx a data m) := by
  have hmem : ∀ i : ℕ, i ∈ inliers ctx a data m ↔
      ∃ d, data[i]? = some d ∧
        Flt.lt (ctx.residual m d) a.inlier_threshold = true := by
    intro i
    simp only [inliers, List.mem_map, List.mem_filter]
    constructor
    · rintro ⟨⟨j, d⟩, ⟨hen, hP⟩, rfl⟩
      exact ⟨d, List.mem_enum_iff_getElem?.mp hen, hP⟩
    · rintro ⟨d, hget, hP⟩
      exact ⟨(i, d), ⟨List.mem_enum_iff_getElem?.mpr hget, hP⟩, rfl⟩
  refine ⟨hmem, ?_, ?_, ?_⟩
  · have h1 : (data.enum).Pairwise (fun p q : ℕ × Data => p.1 < q.1) :=
      pairwise_fst_lt_enumFrom 0 data
    have h2 : ((data.enum).filter
        (fun p => Flt.lt (ctx.residual m p.2) a.inlier_threshold)).Pairwise
        (fun p q : ℕ × Data => p.1 < q.1) :=
      h1.sublist (List.filter_sublist data.enum)
    exact List.pairwise_map.mpr h2
  · intro i hi
    obtain ⟨d, hget, _⟩ := (hmem i).mp hi
    exact (List.getElem?_eq_some.mp hget).1
  · intro i d hget hnan hi
    obtain ⟨d', hget', hP⟩ := (hmem i).mp hi
    rw [hget] at hget'
    cases hget'
    rw [hnan] at hP
    simp [Flt.lt] at hP

theorem sample_one_ok (len32 threshold : ℕ) (acc : List ℕ) (hl : 0 < len32) :
    ∀ (rng : Rng) (fuel s : ℕ) (rng' : Rng),
      sample_one len32 threshold acc rng fuel = .ok (s, rng') →
      s < len32 ∧ s ∉ acc
  | _, 0, _, _ => by simp [sample_one]
  | rng, fuel + 1, s, rng' => by
    simp only [sample_one]
    split
    · split
      · exact fun h => sample_one_ok len32 threshold acc hl _ fuel s rng' h
      · intro h
        rename_i hth hcon
        cases h
        refine ⟨?_, fun hsin => hcon (List.elem_iff.mpr hsin)⟩
        refine Nat.div_lt_of_lt_mul ?_
        calc rng.next.1 * len32 < 2 ^ 32 * len32 :=
              Nat.mul_lt_mul_of_pos_right
                (Nat.mod_lt _ (by norm_num)) hl
          _ = 2 ^ 32 * len32 := rfl
    · exact fun h => sample_one_ok len32 threshold acc hl _ fuel s rng' h

theorem populate_loop_ok (len32 threshold fuel : ℕ) (hl : 0 < len32) :
    ∀ (num : ℕ) (acc : List ℕ) (rng : Rng) (out : List ℕ) (rng' : Rng),
      acc.Nodup → (∀ x ∈ acc, x < len32) →
      populate_loop len32 threshold fuel acc rng num = .ok (out, rng') →
      out.length = acc.length + num ∧ out.Nodup ∧ ∀ x ∈ out, x < len32
  | 0, acc, rng, out, rng' => by
    intro hnd hlt h
    simp only [populate_loop, Except.ok.injEq, Prod.mk.injEq] at h
    obtain ⟨rfl, rfl⟩ := h
    exact ⟨by simp, hnd, hlt⟩
  | num + 1, acc, rng, out, rng' => by
    intro hnd hlt h
    simp only [populate_loop] at h
    cases hs : sample_one len32 threshold acc rng fuel with
    | error e => rw [hs] at h; cases h
    | ok p =>
      rw [hs] at h
      obtain ⟨s, rng₂⟩ := p
      have hso := sample_one_ok len32 threshold acc hl rng fuel s rng₂ hs
      have hrec := populate_loop_ok len32 threshold fuel hl num (acc ++ [s])
        rng₂ out rng' (by simp [List.nodup_append, hnd, hso.2])
        (by
          intro x hx
          rcases List.mem_append.mp hx with hx | hx
          · exact hlt x hx
          · simp only [List.mem_singleton] at hx
            exact hx ▸ hso.1)
        h
      refine ⟨?_, hrec.2.1, hrec.2.2⟩
      have := hrec.1
      simp only [List.length_append, List.length_singleton] at this
      omega

/-- C6: for `n` below `2^32`, a successful `populate_samples(k, n)` leaves the
scratch buffer holding exactly `k` pairwise-distinct indices, each in
`[0, n)`, and when `n < k` the call panics (the embedded
`cannot use arrsac without having enough samples` abort). -/
theorem populate_samples_spec (st st' : ArrsacState) (num len fuel : ℕ)
    (hlen : len < 2 ^ 32) :
    (populate_samples st num len fuel = .ok st' →
      st'.random_samples.length = num ∧ st'.random_samples.Nodup ∧
      ∀ x ∈ st'.random_samples, x < len) ∧
    (len < num → populate_samples st num len fuel = .error .panic) := by
  constructor
  · intro h
    rw [populate_samples] at h
    by_cases hln : len < num
    · rw [if_pos hln] at h; cases h
    · rw [if_neg hln] at h
      simp only [Nat.mod_eq_of_lt hlen] at h
      by_cases hlz0 : len = 0
      · rw [if_pos hlz0] at h; cases h
      · rw [if_neg hlz0] at h
        have hlz : len ≠ 0 := hlz0
        cases hpl : populate_loop len ((2 ^ 32 - len) % 2 ^ 32 % len) fuel []
            st.rng num with
        | error e => rw [hpl] at h; cases h
        | ok p =>
          rw [hpl] at h
          obtain ⟨samples, rng'⟩ := p
          cases h
          have := populate_loop_ok len ((2 ^ 32 - len) % 2 ^ 32 % len) fuel
            (Nat.pos_of_ne_zero hlz) num [] st.rng samples rng'
            (by simp) (by simp) hpl
          simpa using this
  · intro h
    rw [populate_samples]
    simp [h]

theorem populate_samples_spec_witness :
    ∃ st' : ArrsacState, populate_samples st0 1 2 5 = .ok st' ∧
      st'.random_samples.length = 1 ∧ st'.random_samples.Nodup ∧
      ∀ x ∈ st'.random_samples, x < 2 :=
  ⟨⟨⟨st0.rng.stream, 1⟩, [0]⟩, rfl,
    (populate_samples_spec st0 ⟨⟨st0.rng.stream, 1⟩, [0]⟩ 1 2 5
      (by norm_num)).1 rfl⟩

theorem qmul_eq (a b : ℚ) : qmul a b = a * b := by
  rw [qmul, Rat.mkRat_eq_div]
  push_cast
  rw [← div_mul_div_comm, Rat.num_div_den, Rat.num_div_den]

theorem qsub_eq (a b : ℚ) : qsub a b = a - b := by
  have ha : ((a.den : ℚ)) ≠ 0 := by exact_mod_cast a.den_nz
  have hb : ((b.den : ℚ)) ≠ 0 := by exact_mod_cast b.den_nz
  rw [qsub, Rat.mkRat_eq_div]
  conv_rhs => rw [← Rat.num_div_den a, ← Rat.num_div_den b]
  rw [div_sub_div _ _ ha hb]
  push_cast
  ring_nf

theorem qdiv_eq (a b : ℚ) : qdiv a b = a / b := by
  rcases lt_trichotomy b.num 0 with hneg | hzero | hpos
  · rw [qdiv, if_neg (by omega)]
    rw [Rat.mkRat_eq_div]
    have hbn : ((-b.num).toNat : ℚ) = (-b.num : ℤ) := by
      exact_mod_cast Int.toNat_of_nonneg (by omega)
    push_cast [hbn]
    conv_rhs => rw [← Rat.num_div_den a, ← Rat.num_div_den b]
    rw [div_div_eq_mul_div, div_mul_eq_mul_div, div_div]
    rw [div_eq_div_iff]
    · ring
    · have h1 : ((a.den : ℚ)) ≠ 0 := by exact_mod_cast a.den_nz
      intro hcon
      rcases mul_eq_zero.mp hcon with h | h
      · exact h1 h
      · have : (b.num : ℚ) = 0 := by linarith [neg_eq_zero.mp (by linarith : -(b.num : ℚ) = 0)]
        rw [Int.cast_eq_zero] at this
        omega
    · have h1 : ((a.den : ℚ)) ≠ 0 := by exact_mod_cast a.den_nz
      have h2 : ((b.num : ℚ)) ≠ 0 := by
        rw [Int.cast_ne_zero]; omega
      intro hcon
      rcases mul_eq_zero.mp hcon with h | h
      · exact h1 h
      · exact h2 h
  · have hb0 : b = 0 := Rat.num_eq_zero.mp hzero
    subst hb0
    rw [qdiv]
    norm_num
  · rw [qdiv, if_pos (by omega)]
    rw [Rat.mkRat_eq_div]
    have hbn : ((b.num.toNat : ℕ) : ℚ) = (b.num : ℤ) := by
      exact_mod_cast Int.toNat_of_nonneg (by omega)
    push_cast [hbn]
    conv_rhs => rw [← Rat.num_div_den a, ← Rat.num_div_den b]
    rw [div_div_eq_mul_div, div_mul_eq_mul_div, div_div]

theorem mkRat_three_quarters : (mkRat 3 4 : ℚ) = 3 / 4 := by
  norm_num [Rat.mkRat_eq_div]

theorem mkRat_five_quarters : (mkRat 5 4 : ℚ) = 5 / 4 := by
  norm_num [Rat.mkRat_eq_div]

/-- C4 (amended): each ε/δ update step enforces the clamps exactly as the
specification describes (`δ ← ε·0.75` whenever `δ > ε·0.75` on the
accept/winnowing update, `ε ← min(1, 1.25·δ)` whenever `δ > ε` on the
rejection update), and the resulting estimates satisfy `0 ≤ δ ≤ ε·0.75 ≤ 1`
after accept/winnowing updates and `0 ≤ δ ≤ ε ≤ 1` after rejection updates;
the specification's strict invariant `0 < δ < ε < 1` does not hold after
every update (δ can reach 0 and ε can reach 1, and a rejection update leaves
`δ = 0.8·ε > 0.75·ε`). -/
theorem epsilon_delta_updates_amended :
    (∀ (d : ℚ) (inl m0 : ℕ), 0 < m0 → inl ≤ m0 → 0 ≤ d →
      ∃ e' d' : ℚ,
        epsilon_delta_accept (.fin d) inl m0 = (.fin e', .fin d') ∧
        e' = (inl : ℚ) / (m0 : ℚ) ∧ 0 ≤ d' ∧ d' ≤ e' * (3 / 4) ∧ e' ≤ 1 ∧
        (e' * (3 / 4) < d → d' = e' * (3 / 4)) ∧ (d ≤ e' * (3 / 4) → d' = d)) ∧
    (∀ (e : ℚ) (total cnt m0 : ℕ), 0 < cnt → 0 < m0 → total ≤ cnt * m0 →
      0 ≤ e → e ≤ 1 →
      ∃ e' d' : ℚ,
        epsilon_delta_reject (.fin e) total cnt m0 = (.fin e', .fin d') ∧
        d' = (total : ℚ) / ((cnt * m0 : ℕ) : ℚ) ∧ 0 ≤ d' ∧ d' ≤ 1 ∧
        d' ≤ e' ∧ e' ≤ 1 ∧
        (e < d' → e' = min 1 (d' * (5 / 4))) ∧ (d' ≤ e → e' = e)) := by
  constructor
  · intro d inl m0 hm0 hinl hd
    have hm0q : ((m0 : ℚ)) ≠ 0 := by
      simp only [ne_eq, Nat.cast_eq_zero]; omega
    have heps : Flt.div (.fin (inl : ℚ)) (.fin (m0 : ℚ)) =
        .fin ((inl : ℚ) / (m0 : ℚ)) := by
      simp only [Flt.div, if_neg hm0q, qdiv_eq]
    have hepos : (0 : ℚ) ≤ (inl : ℚ) / (m0 : ℚ) := by positivity
    have hele : ((inl : ℚ)) / (m0 : ℚ) ≤ 1 := by
      rw [div_le_one (by positivity)]
      exact_mod_cast hinl
    rw [epsilon_delta_accept, heps]
    simp only [Flt.mul, qmul_eq, mkRat_three_quarters, Flt.lt]
    by_cases hcl : ((inl : ℚ) / (m0 : ℚ)) * (3 / 4) < d
    · refine ⟨(inl : ℚ) / (m0 : ℚ), ((inl : ℚ) / (m0 : ℚ)) * (3 / 4),
        by simp [hcl], rfl, by positivity, le_refl _, hele,
        fun _ => rfl, fun hle => absurd hcl (not_lt.mpr hle)⟩
    · refine ⟨(inl : ℚ) / (m0 : ℚ), d, by simp [hcl], rfl, hd,
        not_lt.mp hcl, hele, fun hlt => absurd hlt hcl, fun _ => rfl⟩
  · intro e total cnt m0 hcnt hm0 htot he0 he1
    have hq : (((cnt * m0 : ℕ) : ℚ)) ≠ 0 := by
      simp only [ne_eq, Nat.cast_eq_zero]
      positivity
    have hdel : Flt.div (.fin (total : ℚ)) (.fin ((cnt * m0 : ℕ) : ℚ)) =
        .fin ((total : ℚ) / ((cnt * m0 : ℕ) : ℚ)) := by
      simp only [Flt.div, if_neg hq, qdiv_eq]
    set dq : ℚ := (total : ℚ) / ((cnt * m0 : ℕ) : ℚ) with hdq
    have hd0 : 0 ≤ dq := by positivity
    have hd1 : dq ≤ 1 := by
      rw [hdq, div_le_one (by positivity)]
      exact_mod_cast htot
    rw [epsilon_delta_reject, hdel]
    simp only [Flt.lt, Flt.mul, qmul_eq, mkRat_five_quarters]
    by_cases hlt : e < dq
    · by_cases hone : (1 : ℚ) < dq * (5 / 4)
      · refine ⟨1, dq, by simp [hlt, hone], rfl, hd0, hd1, hd1, le_refl 1,
          fun _ => ?_, fun hle => absurd hlt (not_lt.mpr hle)⟩
        rw [min_eq_left (le_of_lt hone)]
      · refine ⟨dq * (5 / 4), dq, by simp [hlt, hone], rfl, hd0, hd1, ?_,
          not_lt.mp hone, fun _ => ?_, fun hle => absurd hlt (not_lt.mpr hle)⟩
        · nlinarith
        · rw [min_eq_right (not_lt.mp hone)]
    · exact ⟨e, dq, by simp [hlt], rfl, hd0, hd1, not_lt.mp hlt, he1,
        fun hcon => absurd hcon hlt, fun _ => rfl⟩

theorem epsilon_delta_updates_amended_witness :
    (∃ e' d' : ℚ,
      epsilon_delta_accept (.fin (mkRat 1 100)) 1 2 = (.fin e', .fin d') ∧
      e' = ((1 : ℕ) : ℚ) / ((2 : ℕ) : ℚ) ∧ 0 ≤ d' ∧ d' ≤ e' * (3 / 4) ∧
      e' ≤ 1 ∧ (e' * (3 / 4) < mkRat 1 100 → d' = e' * (3 / 4)) ∧
      (mkRat 1 100 ≤ e' * (3 / 4) → d' = mkRat 1 100)) ∧
    (∃ e' d' : ℚ,
      epsilon_delta_reject (.fin (mkRat 1 20)) 0 1 1 = (.fin e', .fin d') ∧
      d' = ((0 : ℕ) : ℚ) / ((1 * 1 : ℕ) : ℚ) ∧ 0 ≤ d' ∧ d' ≤ 1 ∧
      d' ≤ e' ∧ e' ≤ 1 ∧
      (mkRat 1 20 < d' → e' = min 1 (d' * (5 / 4))) ∧
      (d' ≤ mkRat 1 20 → e' = mkRat 1 20)) :=
  ⟨epsilon_delta_updates_amended.1 (mkRat 1 100) 1 2 (by norm_num)
      (by norm_num) (by norm_num [Rat.mkRat_eq_div]),
   epsilon_delta_updates_amended.2 (mkRat 1 20) 0 1 1 (by norm_num)
      (by norm_num) (by norm_num) (by norm_num [Rat.mkRat_eq_div])
      (by norm_num [Rat.mkRat_eq_div])⟩

/-- C4 is refuted as stated: in a concrete `model_inliers` run (via its
`initial_hypotheses` phase) a rejected model with zero inliers drives the δ
update to `δ = 0` while `ε = 1/20`, so the claimed invariant `0 < δ < ε < 1`
fails after that update. -/
theorem epsilon_delta_invariant_cex :
    resultEpsDelta (initial_hypotheses ctxOut cfgOne st0 [9] 10) =
      some (.fin (mkRat 1 20), .fin 0) ∧
    ¬ EpsDeltaStrictInv (.fin (mkRat 1 20)) (.fin 0) := by
  refine ⟨by decide, ?_⟩
  rintro ⟨e, d, he, hd, hpos, hde, he1⟩
  injection hd with h
  rw [← h] at hpos
  exact lt_irrefl 0 hpos

theorem count_inliers_enumFrom {Data M : Type} (ctx : EstCtx Data M)
    (a : Arrsac) (m : M) :
    ∀ (l : List Data) (n : ℕ),
      ((l.enumFrom n).filter
        (fun p => Flt.lt (ctx.residual m p.2) a.inlier_threshold)).length =
      count_inliers ctx a l m
  | [], _ => by simp [count_inliers]
  | d :: l, n => by
    rw [List.enumFrom_cons]
    rw [count_inliers_cons]
    simp only [List.filter_cons]
    split
    · simp only [List.length_cons]
      rw [count_inliers_enumFrom ctx a m l (n + 1)]
      omega
    · rw [count_inliers_enumFrom ctx a m l (n + 1)]
      omega

theorem count_inliers_eq_inliers_length {Data M : Type} (ctx : EstCtx Data M)
    (a : Arrsac) (data : List Data) (m : M) :
    count_inliers ctx a data m = (inliers ctx a data m).length := by
  rw [inliers, List.length_map]
  exact (count_inliers_enumFrom ctx a m data 0).symm

theorem count_inliers_sublist {Data M : Type} (ctx : EstCtx Data M)
    (a : Arrsac) {l₁ l₂ : List Data} (m : M) (h : List.Sublist l₁ l₂) :
    count_inliers ctx a l₁ m ≤ count_inliers ctx a l₂ m :=
  (h.filter _).length_le

theorem count_inliers_take_le {Data M : Type} (ctx : EstCtx Data M)
    (a : Arrsac) (data : List Data) (p : ℕ) (m : M) :
    count_inliers ctx a (data.take p) m ≤ count_inliers ctx a data m :=
  count_inliers_sublist ctx a m (List.take_sublist p data)

theorem count_inliers_le_length {Data M : Type} (ctx : EstCtx Data M)
    (a : Arrsac) (data : List Data) (m : M) :
    count_inliers ctx a data m ≤ data.length :=
  (List.filter_sublist data).length_le

theorem count_inliers_take_succ {Data M : Type} (ctx : EstCtx Data M)
    (a : Arrsac) (data : List Data) (s : ℕ) (d : Data) (m : M)
    (h : data.get? s = some d) :
    count_inliers ctx a (data.take (s + 1)) m =
      count_inliers ctx a (data.take s) m +
        (if Flt.lt (ctx.residual m d) a.inlier_threshold then 1 else 0) := by
  rw [List.get?_eq_getElem?] at h
  rw [count_inliers, List.take_succ, h]
  simp only [Option.toList_some, List.filter_append, List.length_append]
  rw [count_inliers]
  congr 1
  simp only [List.filter_cons, List.filter_nil]
  split <;> simp

theorem count_inliers_take_of_ge {Data M : Type} (ctx : EstCtx Data M)
    (a : Arrsac) (data : List Data) (p : ℕ) (m : M) (h : data.length ≤ p) :
    count_inliers ctx a (data.take p) m = count_inliers ctx a data m := by
  rw [List.take_of_length_le h]

theorem count_inliers_take_min {Data M : Type} (ctx : EstCtx Data M)
    (a : Arrsac) (data : List Data) (q : ℕ) (m : M) :
    count_inliers ctx a (data.take (min q data.length)) m =
      count_inliers ctx a (data.take q) m := by
  rcases le_total q data.length with h | h
  · rw [min_eq_left h]
  · rw [min_eq_right h, List.take_length,
      count_inliers_take_of_ge ctx a data q m h]

theorem mem_inliers_lt {Data M : Type} (ctx : EstCtx Data M) (a : Arrsac)
    (data : List Data) (m : M) (i : ℕ) (hi : i ∈ inliers ctx a data m) :
    i < data.length := by
  simp only [inliers, List.mem_map, List.mem_filter] at hi
  obtain ⟨⟨j, d⟩, ⟨hen, _⟩, rfl⟩ := hi
  exact (List.getElem?_eq_some.mp (List.mem_enum_iff_getElem?.mp hen)).1

theorem inliers_length_le {Data M : Type} (ctx : EstCtx Data M) (a : Arrsac)
    (data : List Data) (m : M) : (inliers ctx a data m).length ≤ data.length := by
  rw [← count_inliers_eq_inliers_length]
  exact count_inliers_le_length ctx a data m

theorem asprt_go_some {Data M : Type} (ctx : EstCtx Data M) (a : Arrsac)
    (m : M) (plr nlr : Flt) (ms : ℕ) :
    ∀ (ds : List Data) (L : Flt) (c r : ℕ),
      asprt_go ctx a m plr nlr ms ds L c = some r →
      r = c + count_inliers ctx a ds m ∧ ms ≤ r
  | [], L, c, r => by
    simp only [asprt_go, count_inliers, List.filter_nil, List.length_nil]
    split
    · rename_i hms
      intro h
      cases h
      exact ⟨rfl, hms⟩
    · intro h; cases h
  | d :: ds, L, c, r => by
    simp only [asprt_go]
    by_cases hin : Flt.lt (ctx.residual m d) a.inlier_threshold = true
    · simp only [hin, if_true]
      by_cases htr : (Flt.lt a.likelihood_ratio_threshold (L.mul plr) ||
          Flt.isNaN (L.mul plr)) = true
      · rw [if_pos htr]; intro h; cases h
      · rw [if_neg htr]
        intro h
        have hrec := asprt_go_some ctx a m plr nlr ms ds (L.mul plr) (c + 1) r h
        rw [count_inliers_cons]
        refine ⟨?_, hrec.2⟩
        rw [hrec.1]
        simp only [hin, if_true]
        omega
    · simp only [Bool.not_eq_true] at hin
      simp only [hin, Bool.false_eq_true, if_false]
      by_cases htr : (Flt.lt a.likelihood_ratio_threshold (L.mul nlr) ||
          Flt.isNaN (L.mul nlr)) = true
      · rw [if_pos htr]; intro h; cases h
      · rw [if_neg htr]
        intro h
        have hrec := asprt_go_some ctx a m plr nlr ms ds (L.mul nlr) c r h
        rw [count_inliers_cons]
        refine ⟨?_, hrec.2⟩
        rw [hrec.1]
        simp only [hin, Bool.false_eq_true, if_false]
        omega

theorem asprt_some {Data M : Type} (ctx : EstCtx Data M) (a : Arrsac)
    (pre : List Data) (m : M) (plr nlr : Flt) (ms r : ℕ)
    (h : asprt ctx a pre m plr nlr ms = some r) :
    r = count_inliers ctx a pre m ∧ ms ≤ r := by
  have := asprt_go_some ctx a m plr nlr ms pre (.fin 1) 0 r h
  simpa using this

theorem forall2_mono_trans {M : Type} :
    ∀ {l₁ l₂ l₃ : List (M × ℕ)},
      List.Forall₂ (fun mc mc' : M × ℕ => mc'.1 = mc.1 ∧ mc.2 ≤ mc'.2) l₁ l₂ →
      List.Forall₂ (fun mc mc' : M × ℕ => mc'.1 = mc.1 ∧ mc.2 ≤ mc'.2) l₂ l₃ →
      List.Forall₂ (fun mc mc' : M × ℕ => mc'.1 = mc.1 ∧ mc.2 ≤ mc'.2) l₁ l₃ := by
  intro l₁ l₂ l₃ h12
  induction h12 generalizing l₃ with
  | nil => intro h23; cases h23; exact .nil
  | cons hab h12 ih =>
    intro h23
    cases h23 with
    | cons hbc h23 =>
      exact .cons ⟨hbc.1.trans hab.1, hab.2.trans hbc.2⟩ (ih h23)

theorem score_step_inv {Data M : Type} (ctx : EstCtx Data M) (a : Arrsac)
    (data : List Data) (sample : ℕ) (d : Data)
    (hget : data.get? sample = some d) (hyps : List (M × ℕ))
    (h : PoolInv ctx a data sample hyps) :
    PoolInv ctx a data (sample + 1)
      (hyps.map (fun mc =>
        if Flt.lt (ctx.residual mc.1 d) a.inlier_threshold then
          (mc.1, mc.2 + 1)
        else mc)) := by
  intro mc' hmc'
  rw [List.mem_map] at hmc'
  obtain ⟨mc, hmc, rfl⟩ := hmc'
  obtain ⟨hms, hcnt⟩ := h mc hmc
  by_cases hlt : Flt.lt (ctx.residual mc.1 d) a.inlier_threshold = true
  · simp only [hlt, if_true]
    refine ⟨by omega, ?_⟩
    rw [count_inliers_take_succ ctx a data sample d mc.1 hget, hlt]
    simp [hcnt]
  · simp only [Bool.not_eq_true] at hlt
    simp only [hlt, Bool.false_eq_true, if_false]
    refine ⟨hms, ?_⟩
    rw [count_inliers_take_succ ctx a data sample d mc.1 hget, hlt]
    simp [hcnt]

theorem score_samples_forall2 {Data M : Type} (ctx : EstCtx Data M)
    (a : Arrsac) (data : List Data) :
    ∀ (k sample : ℕ) (hyps : List (M × ℕ)),
      List.Forall₂ (fun mc mc' : M × ℕ => mc'.1 = mc.1 ∧ mc.2 ≤ mc'.2) hyps
        (score_samples ctx a data hyps sample k).1
  | 0, sample, hyps => by
    simp only [score_samples]
    exact List.forall₂_same.mpr (fun mc _ => ⟨rfl, le_refl _⟩)
  | k + 1, sample, hyps => by
    simp only [score_samples]
    cases hget : data.get? sample with
    | none => exact List.forall₂_same.mpr (fun mc _ => ⟨rfl, le_refl _⟩)
    | some d =>
      refine forall2_mono_trans ?_ (score_samples_forall2 ctx a data k
        (sample + 1) _)
      rw [List.forall₂_map_right_iff]
      refine List.forall₂_same.mpr (fun mc _ => ?_)
      by_cases hlt : Flt.lt (ctx.residual mc.1 d) a.inlier_threshold = true
      · simp [hlt]
      · simp only [Bool.not_eq_true] at hlt
        simp [hlt]

theorem score_samples_inv_false {Data M : Type} (ctx : EstCtx Data M)
    (a : Arrsac) (data : List Data) :
    ∀ (k sample : ℕ) (hyps : List (M × ℕ)),
      PoolInv ctx a data sample hyps →
      (score_samples ctx a data hyps sample k).2 = false →
      PoolInv ctx a data (sample + k)
        (score_samples ctx a data hyps sample k).1
  | 0, sample, hyps => by
    simp only [score_samples, Nat.add_zero]
    exact fun h _ => h
  | k + 1, sample, hyps => by
    intro hinv hfalse
    simp only [score_samples] at hfalse ⊢
    cases hget : data.get? sample with
    | none => rw [hget] at hfalse; cases hfalse
    | some d =>
      rw [hget] at hfalse
      have := score_samples_inv_false ctx a data k (sample + 1) _
        (score_step_inv ctx a data sample d hget hyps hinv) hfalse
      have harith : sample + 1 + k = sample + (k + 1) := by omega
      rw [harith] at this
      exact this

theorem score_samples_inv_true {Data M : Type} (ctx : EstCtx Data M)
    (a : Arrsac) (data : List Data) :
    ∀ (k sample : ℕ) (hyps : List (M × ℕ)),
      PoolInv ctx a data sample hyps →
      (score_samples ctx a data hyps sample k).2 = true →
      ∀ mc ∈ (score_samples ctx a data hyps sample k).1,
        ctx.MIN_SAMPLES ≤ mc.2 ∧ mc.2 = count_inliers ctx a data mc.1
  | 0, sample, hyps => by
    simp only [score_samples]
    intro _ h
    cases h
  | k + 1, sample, hyps => by
    intro hinv htrue
    simp only [score_samples] at htrue ⊢
    cases hget : data.get? sample with
    | none =>
      intro mc hmc
      obtain ⟨hms, hcnt⟩ := hinv mc hmc
      have hlen : data.length ≤ sample := by
        rw [List.get?_eq_getElem?] at hget
        exact List.getElem?_eq_none_iff.mp hget
      exact ⟨hms, by rw [hcnt, count_inliers_take_of_ge ctx a data sample mc.1
        hlen]⟩
    | some d =>
      rw [hget] at htrue
      exact score_samples_inv_true ctx a data k (sample + 1) _
        (score_step_inv ctx a data sample d hget hyps hinv) htrue

theorem score_samples_false_le {Data M : Type} (ctx : EstCtx Data M)
    (a : Arrsac) (data : List Data) :
    ∀ (k sample : ℕ) (hyps : List (M × ℕ)),
      (score_samples ctx a data hyps sample k).2 = false →
      sample + k ≤ data.length ∨ k = 0
  | 0, _, _ => fun _ => Or.inr rfl
  | k + 1, sample, hyps => by
    intro hfalse
    simp only [score_samples] at hfalse
    cases hget : data.get? sample with
    | none => rw [hget] at hfalse; cases hfalse
    | some d =>
      rw [hget] at hfalse
      have hlt : sample < data.length := by
        rw [List.get?_eq_getElem?] at hget
        exact (List.getElem?_eq_some.mp hget).1
      rcases score_samples_false_le ctx a data k (sample + 1) _ hfalse with
        h | h
      · left; omega
      · left; omega

theorem mem_insertDesc {M : Type} (x : M × ℕ) :
    ∀ (l : List (M × ℕ)) (y : M × ℕ), y ∈ insertDesc x l ↔ y = x ∨ y ∈ l
  | [], y => by simp [insertDesc]
  | z :: l, y => by
    rw [insertDesc]
    split
    · simp [or_comm, or_assoc, or_left_comm]
    · simp only [List.mem_cons, mem_insertDesc x l y]
      tauto

theorem mem_sortDesc {M : Type} :
    ∀ (l : List (M × ℕ)) (y : M × ℕ), y ∈ sortDesc l ↔ y ∈ l
  | [], y => by simp [sortDesc]
  | x :: l, y => by
    rw [sortDesc, List.foldr_cons]
    rw [show List.foldr insertDesc [] l = sortDesc l from rfl]
    rw [mem_insertDesc, mem_sortDesc l y]
    simp

theorem sortDesc_head {M : Type} (x : M × ℕ) (l : List (M × ℕ)) :
    ∃ hd, (sortDesc (x :: l)).head? = some hd ∧ (hd = x ∨ x.2 < hd.2) ∧
      (hd = x ∨ hd ∈ l) := by
  rw [sortDesc, List.foldr_cons,
    show List.foldr insertDesc [] l = sortDesc l from rfl]
  cases hs : sortDesc l with
  | nil => exact ⟨x, by simp [insertDesc], Or.inl rfl, Or.inl rfl⟩
  | cons z t =>
    rw [insertDesc]
    by_cases hz : z.2 ≤ x.2
    · exact ⟨x, by simp [hz], Or.inl rfl, Or.inl rfl⟩
    · refine ⟨z, by simp [hz], Or.inr (by omega), Or.inr ?_⟩
      have : z ∈ sortDesc l := by rw [hs]; exact List.mem_cons_self z t
      exact (mem_sortDesc l z).mp this

theorem take_head {M : Type} (x : M × ℕ) (l : List (M × ℕ)) (k : ℕ)
    (hk : 1 ≤ k) : ((x :: l).take k).head? = some x := by
  cases k with
  | zero => omega
  | succ k => simp [List.take_succ_cons]

theorem max_fold_spec {M : Type} :
    ∀ (l : List (M × ℕ)) (y w : M × ℕ),
      List.foldl (fun acc x =>
        match acc with
        | none => some x
        | some z => if z.2 ≤ x.2 then some x else some z) (some y) l =
        some w →
      (w = y ∨ w ∈ l) ∧ y.2 ≤ w.2 ∧ ∀ x ∈ l, x.2 ≤ w.2
  | [], y, w => by
    intro h
    simp only [List.foldl_nil, Option.some.injEq] at h
    exact ⟨Or.inl h.symm, by rw [h], by simp⟩
  | x :: t, y, w => by
    intro h
    rw [List.foldl_cons] at h
    by_cases hyx : y.2 ≤ x.2
    · simp only [hyx, if_true] at h
      obtain ⟨hw, hle, hall⟩ := max_fold_spec t x w h
      refine ⟨?_, ?_, ?_⟩
      · rcases hw with hw | hw
        · rw [hw]; exact Or.inr (List.mem_cons_self _ _)
        · exact Or.inr (List.mem_cons_of_mem x hw)
      · omega
      · intro z hz
        rcases List.mem_cons.mp hz with hz | hz
        · rw [hz]; exact hle
        · exact hall z hz
    · simp only [hyx, if_false] at h
      obtain ⟨hw, hle, hall⟩ := max_fold_spec t y w h
      refine ⟨?_, hle, ?_⟩
      · rcases hw with hw | hw
        · exact Or.inl hw
        · exact Or.inr (List.mem_cons_of_mem x hw)
      · intro z hz
        rcases List.mem_cons.mp hz with hz | hz
        · rw [hz]; omega
        · exact hall z hz

theorem max_by_last_spec {M : Type} (h : M × ℕ) (t : List (M × ℕ))
    (w : M × ℕ) (hmax : max_by_last (h :: t) = some w) :
    w ∈ h :: t ∧ ∀ x ∈ h :: t, x.2 ≤ w.2 := by
  rw [max_by_last, List.foldl_cons] at hmax
  obtain ⟨hw, hle, hall⟩ := max_fold_spec t h w hmax
  refine ⟨?_, ?_⟩
  · rcases hw with hw | hw
    · rw [hw]; exact List.mem_cons_self _ _
    · exact List.mem_cons_of_mem h hw
  · intro x hx
    rcases List.mem_cons.mp hx with hx | hx
    · rw [hx]; exact hle
    · exact hall x hx

theorem gen_loop_append {Data M : Type} (ctx : EstCtx Data M) (a : Arrsac)
    (data : List Data) (inls : List ℕ) (plr nlr : Flt) (stop fuel : ℕ) :
    ∀ (k : ℕ) (hyps : List (M × ℕ)) (st : ArrsacState)
      (out : List (M × ℕ)) (st' : ArrsacState),
      gen_loop ctx a data inls plr nlr stop fuel k hyps st = .ok (out, st') →
      ∃ ex, out = hyps ++ ex ∧ ∀ mc ∈ ex, ctx.MIN_SAMPLES ≤ mc.2 ∧
        mc.2 = count_inliers ctx a (data.take stop) mc.1
  | 0, hyps, st, out, st' => by
    intro h
    simp only [gen_loop, Except.ok.injEq, Prod.mk.injEq] at h
    exact ⟨[], by simp [h.1.symm], by simp⟩
  | k + 1, hyps, st, out, st' => by
    intro h
    simp only [gen_loop] at h
    cases hg : generate_random_hypotheses_subset ctx st data inls fuel with
    | error e => rw [hg] at h; cases h
    | ok p =>
      rw [hg] at h
      obtain ⟨models, st₂⟩ := p
      obtain ⟨ex', hout, hex'⟩ :=
        gen_loop_append ctx a data inls plr nlr stop fuel k _ _ out st' h
      refine ⟨(models.filterMap (fun m =>
        (asprt ctx a (data.take stop) m plr nlr ctx.MIN_SAMPLES).map
          (fun c => (m, c)))) ++ ex', by rw [hout, List.append_assoc], ?_⟩
      intro mc hmc
      rcases List.mem_append.mp hmc with hmc | hmc
      · rw [List.mem_filterMap] at hmc
        obtain ⟨m, _, hm⟩ := hmc
        cases hasp : asprt ctx a (data.take stop) m plr nlr
            ctx.MIN_SAMPLES with
        | none => rw [hasp] at hm; cases hm
        | some c =>
          rw [hasp] at hm
          simp only [Option.map_some', Option.some.injEq] at hm
          obtain ⟨hc, hms⟩ := asprt_some ctx a (data.take stop) m plr nlr
            ctx.MIN_SAMPLES c hasp
          rw [← hm]
          exact ⟨hms, hc⟩
      · exact hex' mc hmc

theorem winnow_loop_winner {Data M : Type} (ctx : EstCtx Data M) (a : Arrsac)
    (data : List Data) (fuel : ℕ) :
    ∀ (ofuel block : ℕ) (delta : Flt) (hyps : List (M × ℕ))
      (st : ArrsacState),
      hyps ≠ [] →
      PoolInv ctx a data (block * a.block_size) hyps →
      (∀ h₀ ∈ hyps.head?, ctx.MIN_SAMPLES <
        (inliers ctx a data h₀.1).length) →
      ∀ (out : List (M × ℕ)) (st' : ArrsacState),
        winnow_loop ctx a data fuel ofuel block delta hyps st =
          .ok (out, st') →
        ∀ w, max_by_last out = some w →
          ctx.MIN_SAMPLES < (inliers ctx a data w.1).length
  | 0, block, delta, hyps, st => by
    intro _ _ _ out st' h
    cases h
  | ofuel + 1, block, delta, hyps, st => by
    intro hne hinv hhead out st' hrun w hw
    match hhyps : hyps with
    | [] => exact absurd rfl hne
    | h :: hrest =>
    subst hhyps
    simp only [winnow_loop] at hrun
    have hfa := score_samples_forall2 ctx a data a.block_size
      (block * a.block_size) (h :: hrest)
    cases hsc : score_samples ctx a data (h :: hrest)
        (block * a.block_size) a.block_size with
    | mk sc1 flag =>
    rw [hsc] at hrun hfa
    simp only at hfa
    cases hfa with
    | cons hrel hfa' =>
    rename_i b l'
    cases flag with
    | true =>
      simp only [Except.ok.injEq, Prod.mk.injEq] at hrun
      obtain ⟨rfl, rfl⟩ := hrun
      have hglobal := score_samples_inv_true ctx a data a.block_size
        (block * a.block_size) (h :: hrest) hinv (by rw [hsc])
      rw [hsc] at hglobal
      simp only at hglobal
      obtain ⟨hwmem, hwmax⟩ := max_by_last_spec b l' w hw
      have hb := hglobal b (List.mem_cons_self b l')
      have hwg := hglobal w hwmem
      have hbg : ctx.MIN_SAMPLES < count_inliers ctx a data b.1 := by
        rw [hrel.1]
        rw [count_inliers_eq_inliers_length]
        exact hhead h rfl
      have hble : b.2 ≤ w.2 := hwmax b (List.mem_cons_self b l')
      rw [← count_inliers_eq_inliers_length]
      rw [← hwg.2]
      rw [hb.2] at hble
      omega
    | false =>
      have hinv' := score_samples_inv_false ctx a data a.block_size
        (block * a.block_size) (h :: hrest) hinv (by rw [hsc])
      rw [hsc] at hinv'
      simp only at hinv'
      simp only at hrun
      cases hgen : gen_loop ctx a data (inliers ctx a data b.1)
          (likelihood_ratios (epsilon_delta_accept delta b.2
            (block * a.block_size + a.block_size)).1
            (epsilon_delta_accept delta b.2
              (block * a.block_size + a.block_size)).2).1
          (likelihood_ratios (epsilon_delta_accept delta b.2
            (block * a.block_size + a.block_size)).1
            (epsilon_delta_accept delta b.2
              (block * a.block_size + a.block_size)).2).2
          (block * a.block_size + a.block_size) fuel
          a.max_candidate_hypotheses (b :: l') st with
      | error e => rw [hgen] at hrun; cases hrun
      | ok p =>
      rw [hgen] at hrun
      obtain ⟨hyps2, st₂⟩ := p
      simp only at hrun
      obtain ⟨ex, hhyps2, hex⟩ := gen_loop_append ctx a data _ _ _ _ fuel
        a.max_candidate_hypotheses (b :: l') st hyps2 st₂ hgen
      have hinv2 : PoolInv ctx a data (block * a.block_size + a.block_size)
          hyps2 := by
        intro mc hmc
        rw [hhyps2] at hmc
        rcases List.mem_append.mp hmc with hmc | hmc
        · exact hinv' mc hmc
        · exact hex mc hmc
      have hbg : ctx.MIN_SAMPLES < count_inliers ctx a data b.1 := by
        rw [hrel.1, count_inliers_eq_inliers_length]
        exact hhead h rfl
      have hhyps2c : hyps2 = b :: (l' ++ ex) := by rw [hhyps2]; rfl
      obtain ⟨hd, hdhead, hdrel, hdmem⟩ := sortDesc_head b (l' ++ ex)
      have hdg : ctx.MIN_SAMPLES < count_inliers ctx a data hd.1 := by
        rcases hdrel with hdb | hdlt
        · rw [hdb]; exact hbg
        · have hdmem2 : hd ∈ hyps2 := by
            rcases hdmem with hdb | hdm
            · rw [hdb, hhyps2c]; exact List.mem_cons_self _ _
            · rw [hhyps2c]; exact List.mem_cons_of_mem b hdm
          obtain ⟨hbms, _⟩ := hinv2 b (by
            rw [hhyps2c]; exact List.mem_cons_self _ _)
          obtain ⟨_, hdcnt⟩ := hinv2 hd hdmem2
          have : hd.2 ≤ count_inliers ctx a data hd.1 := by
            rw [hdcnt]
            exact count_inliers_take_le ctx a data _ hd.1
          omega
      rw [← hhyps2c] at hdhead
      cases hsd : sortDesc hyps2 with
      | nil => rw [hsd] at hdhead; cases hdhead
      | cons sd1 sdrest =>
      rw [hsd] at hdhead
      simp only [List.head?_cons, Option.some.injEq] at hdhead
      subst hdhead
      by_cases hlen : ((sortDesc hyps2).take
          (a.max_candidate_hypotheses >>> block)).length ≤ 1
      · rw [if_pos (by rw [hsd] at hlen ⊢; exact hlen)] at hrun
        simp only [Except.ok.injEq, Prod.mk.injEq] at hrun
        obtain ⟨hout, rfl⟩ := hrun
        rw [hsd] at hout
        cases hk : a.max_candidate_hypotheses >>> block with
        | zero =>
          rw [hk] at hout
          simp only [List.take_zero] at hout
          rw [← hout] at hw
          cases hw
        | succ k =>
          rw [hk] at hout
          rw [List.take_succ_cons] at hout
          rw [← hout] at hw
          obtain ⟨hwmem, _⟩ := max_by_last_spec sd1 _ w hw
          have hlen2 : (sd1 :: (sdrest.take k)).length ≤ 1 := by
            rw [hsd, hk, List.take_succ_cons] at hlen
            exact hlen
          simp only [List.length_cons] at hlen2
          have : sdrest.take k = [] := List.length_eq_zero.mp (by omega)
          rw [this] at hwmem
          simp only [List.mem_singleton] at hwmem
          rw [hwmem, ← count_inliers_eq_inliers_length]
          exact hdg
      · rw [if_neg (by rw [hsd] at hlen ⊢; exact hlen)] at hrun
        refine winnow_loop_winner ctx a data fuel ofuel (block + 1) _ _ st₂
          ?_ ?_ ?_ out st' hrun w hw
        · intro hcon
          rw [hcon] at hlen
          simp at hlen
        · intro mc hmc
          have hmem2 : mc ∈ hyps2 :=
            (mem_sortDesc hyps2 mc).mp (List.mem_of_mem_take hmc)
          have := hinv2 mc hmem2
          rw [Nat.succ_mul]
          exact this
        · intro h₀ hh₀
          rw [hsd] at hh₀
          cases hk : a.max_candidate_hypotheses >>> block with
          | zero =>
            rw [hsd, hk] at hlen
            simp at hlen
          | succ k =>
            rw [hk, List.take_succ_cons, List.head?_cons] at hh₀
            cases hh₀
            rw [← count_inliers_eq_inliers_length]
            exact hdg

theorem process_model_initInv {Data M : Type} (ctx : EstCtx Data M)
    (a : Arrsac) (data : List Data) (m0 : ℕ) (s : InitState M) (m : M)
    (h : InitInv ctx a data m0 s) :
    InitInv ctx a data m0 (process_model ctx a data m0 s m) := by
  obtain ⟨hpool, husable⟩ := h
  rw [process_model]
  cases hasp : asprt ctx a (data.take m0) m s.positive_likelihood_ratio
      s.negative_likelihood_ratio ctx.MIN_SAMPLES with
  | none => exact ⟨hpool, husable⟩
  | some inl =>
    obtain ⟨hc, hms⟩ := asprt_some ctx a (data.take m0) m
      s.positive_likelihood_ratio s.negative_likelihood_ratio
      ctx.MIN_SAMPLES inl hasp
    simp only
    split
    · constructor
      · intro mc hmc
        simp only [List.mem_append, List.mem_singleton] at hmc
        rcases hmc with hmc | hmc
        · exact hpool mc hmc
        · rw [hmc]
          exact ⟨hms, hc⟩
      · intro _
        refine ⟨m, rfl, ?_⟩
        rw [← count_inliers_eq_inliers_length]
        have := count_inliers_take_le ctx a data m0 m
        omega
    · constructor
      · intro mc hmc
        simp only [List.mem_append, List.mem_singleton] at hmc
        rcases hmc with hmc | hmc
        · exact hpool mc hmc
        · rw [hmc]
          exact ⟨hms, hc⟩
      · exact husable

theorem foldl_process_initInv {Data M : Type} (ctx : EstCtx Data M)
    (a : Arrsac) (data : List Data) (m0 : ℕ) :
    ∀ (models : List M) (s : InitState M), InitInv ctx a data m0 s →
      InitInv ctx a data m0 (models.foldl (process_model ctx a data m0) s)
  | [], s, h => by simpa using h
  | m :: ms, s, h => by
    rw [List.foldl_cons]
    exact foldl_process_initInv ctx a data m0 ms _
      (process_model_initInv ctx a data m0 s m h)

theorem initial_loop_initInv {Data M : Type} (ctx : EstCtx Data M)
    (a : Arrsac) (data : List Data) (m0 fuel : ℕ) :
    ∀ (n : ℕ) (st : ArrsacState) (s : InitState M) (st' : ArrsacState)
      (s' : InitState M),
      InitInv ctx a data m0 s →
      initial_loop ctx a data m0 fuel n st s = .ok (st', s') →
      InitInv ctx a data m0 s'
  | 0, st, s, st', s' => by
    intro h hloop
    simp only [initial_loop, Except.ok.injEq, Prod.mk.injEq] at hloop
    rw [← hloop.2]
    exact h
  | n + 1, st, s, st', s' => by
    intro h hloop
    simp only [initial_loop, initial_iter] at hloop
    cases hg : (if s.found_usable_hypothesis = true then
        generate_random_hypotheses_subset ctx st data s.best_inlier_indices
          fuel
      else generate_random_hypotheses ctx st data fuel) with
    | error e => rw [hg] at hloop; cases hloop
    | ok p =>
      rw [hg] at hloop
      obtain ⟨models, st₂⟩ := p
      simp only at hloop
      exact initial_loop_initInv ctx a data m0 fuel n st₂ _ st' s'
        (foldl_process_initInv ctx a data m0 models s h) hloop

theorem initial_hypotheses_pool {Data M : Type} (ctx : EstCtx Data M)
    (a : Arrsac) (st : ArrsacState) (data : List Data) (fuel : ℕ)
    (hyps : List (M × ℕ)) (e d : Flt) (st' : ArrsacState)
    (h : initial_hypotheses ctx a st data fuel = .ok (hyps, e, d, st')) :
    ∀ mc ∈ hyps, ctx.MIN_SAMPLES ≤ mc.2 ∧
      mc.2 = count_inliers ctx a
        (data.take (min a.block_size data.length)) mc.1 := by
  rw [initial_hypotheses] at h
  cases hloop : initial_loop ctx a data (min a.block_size data.length) fuel
      a.max_candidate_hypotheses st
      { hypotheses := []
        best_inliers := (a.initial_epsilon.mul
          (.fin (min a.block_size data.length : ℕ))).toUsize
        epsilon := a.initial_epsilon
        delta := a.initial_delta
        positive_likelihood_ratio :=
          (likelihood_ratios a.initial_epsilon a.initial_delta).1
        negative_likelihood_ratio :=
          (likelihood_ratios a.initial_epsilon a.initial_delta).2
        current_delta_estimations := 0
        total_delta_inliers := 0
        best_inlier_indices := []
        found_usable_hypothesis := false } with
  | error er => rw [hloop] at h; cases h
  | ok p =>
    rw [hloop] at h
    obtain ⟨st₂, s⟩ := p
    simp only [Except.ok.injEq, Prod.mk.injEq] at h
    obtain ⟨hh, _, _, _⟩ := h
    have hinv := initial_loop_initInv ctx a data
      (min a.block_size data.length) fuel a.max_candidate_hypotheses st _
      st₂ s ⟨by simp, by simp⟩ hloop
    rw [← hh]
    exact hinv.1

/-- C1: whenever `model_inliers` returns a model with its inlier indices, the
returned indices are the model's global inlier indices and their number — the
model's inlier count over the whole dataset under the strict threshold
comparison — is strictly greater than `MIN_SAMPLES`. -/
theorem model_inliers_min_support {Data M : Type} (ctx : EstCtx Data M)
    (a : Arrsac) (st : ArrsacState) (data : List Data) (fuel ofuel : ℕ)
    (m : M) (il : List ℕ)
    (h : resultModel (model_inliers ctx a st data fuel ofuel) =
      some (m, il)) :
    il = inliers ctx a data m ∧ ctx.MIN_SAMPLES < il.length := by
  rw [model_inliers] at h
  by_cases hlen : data.length < ctx.MIN_SAMPLES
  · rw [if_pos hlen] at h
    simp [resultModel] at h
  · rw [if_neg hlen] at h
    cases hih : initial_hypotheses ctx a st data fuel with
    | error e => rw [hih] at h; simp [resultModel] at h
    | ok q =>
      rw [hih] at h
      obtain ⟨hyps0, e0, d0, st₂⟩ := q
      simp only at h
      cases hq : (sortDesc hyps0).take a.max_candidate_hypotheses with
      | nil => rw [hq] at h; simp [resultModel] at h
      | cons hc rest =>
        rw [hq] at h
        obtain ⟨h0, c0⟩ := hc
        simp only at h
        by_cases hchk : (inliers ctx a data h0).length ≤ ctx.MIN_SAMPLES
        · rw [if_pos hchk] at h
          simp [resultModel] at h
        · rw [if_neg hchk] at h
          cases hwin : winnow_loop ctx a data fuel ofuel 1 d0
              ((h0, c0) :: rest) st₂ with
          | error e => rw [hwin] at h; simp [resultModel] at h
          | ok p =>
            rw [hwin] at h
            obtain ⟨pool, st₃⟩ := p
            simp only at h
            cases hmx : max_by_last pool with
            | none => rw [hmx] at h; simp [resultModel] at h
            | some w =>
              rw [hmx] at h
              simp only [resultModel, Option.some.injEq, Prod.mk.injEq] at h
              obtain ⟨hm, hil⟩ := h
              have hpool := initial_hypotheses_pool ctx a st data fuel hyps0
                e0 d0 st₂ hih
              have hwinner := winnow_loop_winner ctx a data fuel ofuel 1 d0
                ((h0, c0) :: rest) st₂ (by simp)
                (by
                  intro mc hmc
                  have hmem : mc ∈ hyps0 := (mem_sortDesc hyps0 mc).mp
                    (List.mem_of_mem_take (hq ▸ List.mem_cons.mpr
                      (by exact List.mem_cons.mp hmc)))
                  obtain ⟨hms, hcnt⟩ := hpool mc hmem
                  refine ⟨hms, ?_⟩
                  rw [hcnt, one_mul, count_inliers_take_min])
                (by
                  intro h₀ hh₀
                  simp only [List.head?_cons, Option.mem_def,
                    Option.some.injEq] at hh₀
                  rw [← hh₀]
                  exact not_le.mp hchk)
                pool st₃ hwin w hmx
              rw [← hm, ← hil]
              exact ⟨rfl, hwinner⟩

theorem model_inliers_min_support_witness :
    resultModel (model_inliers ctxAll cfgSmall st0 [5, 7] 10 10) =
      some (0, [0, 1]) ∧
    [0, 1] = inliers ctxAll cfgSmall [5, 7] 0 ∧
    ctxAll.MIN_SAMPLES < ([0, 1] : List ℕ).length :=
  ⟨by decide,
    model_inliers_min_support ctxAll cfgSmall st0 [5, 7] 10 10 0 [0, 1]
      (by decide)⟩

theorem sample_one_no_panic (len32 threshold : ℕ) (acc : List ℕ) :
    ∀ (rng : Rng) (fuel : ℕ),
      sample_one len32 threshold acc rng fuel ≠ .error .panic
  | _, 0 => by simp [sample_one]
  | rng, fuel + 1 => by
    simp only [sample_one]
    split
    · split
      · exact sample_one_no_panic len32 threshold acc _ fuel
      · simp
    · exact sample_one_no_panic len32 threshold acc _ fuel

theorem populate_loop_no_panic (len32 threshold fuel : ℕ) :
    ∀ (num : ℕ) (acc : List ℕ) (rng : Rng),
      populate_loop len32 threshold fuel acc rng num ≠ .error .panic
  | 0, acc, rng => by simp [populate_loop]
  | num + 1, acc, rng => by
    simp only [populate_loop]
    cases hs : sample_one len32 threshold acc rng fuel with
    | error e =>
      intro hcon
      simp only [Except.error.injEq] at hcon
      rw [hcon] at hs
      exact sample_one_no_panic len32 threshold acc rng fuel hs
    | ok p => exact populate_loop_no_panic len32 threshold fuel num _ _

theorem populate_samples_no_panic (st : ArrsacState) (num len fuel : ℕ)
    (hnum : num ≤ len) (hpos : 0 < len) (hlen : len < 2 ^ 32) :
    populate_samples st num len fuel ≠ .error .panic := by
  rw [populate_samples, if_neg (by omega)]
  simp only [Nat.mod_eq_of_lt hlen]
  rw [if_neg (by omega)]
  cases hpl : populate_loop len ((2 ^ 32 - len) % 2 ^ 32 % len) fuel []
      st.rng num with
  | error e =>
    intro hcon
    simp only [Except.error.injEq] at hcon
    rw [hcon] at hpl
    exact populate_loop_no_panic len _ fuel num [] st.rng hpl
  | ok p => simp

theorem populate_samples_ok_bounds (st st' : ArrsacState) (num len fuel : ℕ)
    (hlen : len < 2 ^ 32) (h : populate_samples st num len fuel = .ok st') :
    st'.random_samples.length = num ∧ st'.random_samples.Nodup ∧
    ∀ x ∈ st'.random_samples, x < len := by
  rw [populate_samples] at h
  by_cases hln : len < num
  · rw [if_pos hln] at h; cases h
  · rw [if_neg hln] at h
    simp only [Nat.mod_eq_of_lt hlen] at h
    by_cases hlz0 : len = 0
    · rw [if_pos hlz0] at h; cases h
    · rw [if_neg hlz0] at h
      cases hpl : populate_loop len ((2 ^ 32 - len) % 2 ^ 32 % len) fuel []
          st.rng num with
      | error e => rw [hpl] at h; cases h
      | ok p =>
        rw [hpl] at h
        obtain ⟨samples, rng'⟩ := p
        cases h
        have := populate_loop_ok len ((2 ^ 32 - len) % 2 ^ 32 % len) fuel
          (Nat.pos_of_ne_zero hlz0) num [] st.rng samples rng'
          (by simp) (by simp) hpl
        simpa using this

theorem select_data_some {Data : Type} (data : List Data) :
    ∀ (ixs : List ℕ), (∀ ix ∈ ixs, ix < data.length) →
      ∃ sel, select_data data ixs = some sel
  | [], _ => ⟨[], rfl⟩
  | ix :: rest, h => by
    simp only [select_data]
    have hix : ix < data.length := h ix (List.mem_cons_self ix rest)
    cases hget : data.get? ix with
    | none =>
      rw [List.get?_eq_getElem?, List.getElem?_eq_none_iff] at hget
      omega
    | some d =>
      obtain ⟨sel, hsel⟩ := select_data_some data rest
        (fun j hj => h j (List.mem_cons_of_mem ix hj))
      rw [hsel]
      exact ⟨d :: sel, rfl⟩

theorem select_subset_data_some {Data : Type} (data : List Data)
    (subset : List ℕ) (hsub : ∀ j ∈ subset, j < data.length) :
    ∀ (ixs : List ℕ), (∀ ix ∈ ixs, ix < subset.length) →
      ∃ sel, select_subset_data data subset ixs = some sel
  | [], _ => ⟨[], rfl⟩
  | ix :: rest, h => by
    simp only [select_subset_data]
    have hix : ix < subset.length := h ix (List.mem_cons_self ix rest)
    cases hget : subset.get? ix with
    | none =>
      rw [List.get?_eq_getElem?, List.getElem?_eq_none_iff] at hget
      omega
    | some j =>
      have hj : j ∈ subset := by
        rw [List.get?_eq_getElem?] at hget
        exact List.getElem?_mem hget
      cases hgd : data.get? j with
      | none =>
        rw [List.get?_eq_getElem?, List.getElem?_eq_none_iff] at hgd
        have := hsub j hj
        omega
      | some d =>
        obtain ⟨sel, hsel⟩ := select_subset_data_some data subset hsub rest
          (fun i hi => h i (List.mem_cons_of_mem ix hi))
        simp only [hgd, hsel]
        exact ⟨d :: sel, rfl⟩

theorem generate_random_hypotheses_no_panic {Data M : Type}
    (ctx : EstCtx Data M) (st : ArrsacState) (data : List Data) (fuel : ℕ)
    (hms : 1 ≤ ctx.MIN_SAMPLES) (hn : ctx.MIN_SAMPLES ≤ data.length)
    (hlen : data.length < 2 ^ 32) :
    generate_random_hypotheses ctx st data fuel ≠ .error .panic := by
  rw [generate_random_hypotheses]
  cases hp : populate_samples st ctx.MIN_SAMPLES data.length fuel with
  | error e =>
    intro hcon
    simp only [Except.error.injEq] at hcon
    rw [hcon] at hp
    exact populate_samples_no_panic st ctx.MIN_SAMPLES data.length fuel hn
      (by omega) hlen hp
  | ok st' =>
    obtain ⟨_, _, hbnd⟩ := populate_samples_ok_bounds st st' ctx.MIN_SAMPLES
      data.length fuel hlen hp
    obtain ⟨sel, hsel⟩ := select_data_some data st'.random_samples hbnd
    simp [hsel]

theorem generate_random_hypotheses_subset_no_panic {Data M : Type}
    (ctx : EstCtx Data M) (st : ArrsacState) (data : List Data)
    (subset : List ℕ) (fuel : ℕ) (hms : 1 ≤ ctx.MIN_SAMPLES)
    (hn : ctx.MIN_SAMPLES ≤ subset.length)
    (hlen : subset.length < 2 ^ 32)
    (hsub : ∀ j ∈ subset, j < data.length) :
    generate_random_hypotheses_subset ctx st data subset fuel ≠
      .error .panic := by
  rw [generate_random_hypotheses_subset]
  cases hp : populate_samples st ctx.MIN_SAMPLES subset.length fuel with
  | error e =>
    intro hcon
    simp only [Except.error.injEq] at hcon
    rw [hcon] at hp
    exact populate_samples_no_panic st ctx.MIN_SAMPLES subset.length fuel hn
      (by omega) hlen hp
  | ok st' =>
    obtain ⟨_, _, hbnd⟩ := populate_samples_ok_bounds st st' ctx.MIN_SAMPLES
      subset.length fuel hlen hp
    obtain ⟨sel, hsel⟩ := select_subset_data_some data subset hsub
      st'.random_samples hbnd
    simp [hsel]

theorem gen_loop_no_panic {Data M : Type} (ctx : EstCtx Data M) (a : Arrsac)
    (data : List Data) (inls : List ℕ) (plr nlr : Flt) (stop fuel : ℕ)
    (hms : 1 ≤ ctx.MIN_SAMPLES) (hn : ctx.MIN_SAMPLES ≤ inls.length)
    (hlen : inls.length < 2 ^ 32) (hsub : ∀ j ∈ inls, j < data.length) :
    ∀ (k : ℕ) (hyps : List (M × ℕ)) (st : ArrsacState),
      gen_loop ctx a data inls plr nlr stop fuel k hyps st ≠ .error .panic
  | 0, hyps, st => by simp [gen_loop]
  | k + 1, hyps, st => by
    simp only [gen_loop]
    cases hg : generate_random_hypotheses_subset ctx st data inls fuel with
    | error e =>
      intro hcon
      simp only [Except.error.injEq] at hcon
      rw [hcon] at hg
      exact generate_random_hypotheses_subset_no_panic ctx st data inls fuel
        hms hn hlen hsub hg
    | ok p =>
      exact gen_loop_no_panic ctx a data inls plr nlr stop fuel hms hn hlen
        hsub k _ _

theorem initial_loop_no_panic {Data M : Type} (ctx : EstCtx Data M)
    (a : Arrsac) (data : List Data) (m0 fuel : ℕ)
    (hms : 1 ≤ ctx.MIN_SAMPLES) (hn : ctx.MIN_SAMPLES ≤ data.length)
    (hlen : data.length < 2 ^ 32) :
    ∀ (n : ℕ) (st : ArrsacState) (s : InitState M),
      InitInv ctx a data m0 s →
      initial_loop ctx a data m0 fuel n st s ≠ .error .panic
  | 0, st, s => by simp [initial_loop]
  | n + 1, st, s => by
    intro hinv
    simp only [initial_loop, initial_iter]
    cases hg : (if s.found_usable_hypothesis = true then
        generate_random_hypotheses_subset ctx st data s.best_inlier_indices
          fuel
      else generate_random_hypotheses ctx st data fuel) with
    | error e =>
      intro hcon
      simp only [Except.error.injEq] at hcon
      rw [hcon] at hg
      by_cases husable : s.found_usable_hypothesis = true
      · rw [if_pos husable] at hg
        obtain ⟨mm, hmm, hlenm⟩ := hinv.2 husable
        refine generate_random_hypotheses_subset_no_panic ctx st data
          s.best_inlier_indices fuel hms hlenm ?_ ?_ hg
        · calc s.best_inlier_indices.length ≤ data.length := by
                rw [hmm]; exact inliers_length_le ctx a data mm
            _ < 2 ^ 32 := hlen
        · intro j hj
          rw [hmm] at hj
          exact mem_inliers_lt ctx a data mm j hj
      · rw [if_neg husable] at hg
        exact generate_random_hypotheses_no_panic ctx st data fuel hms hn
          hlen hg
    | ok p =>
      obtain ⟨models, st₂⟩ := p
      simp only
      exact initial_loop_no_panic ctx a data m0 fuel hms hn hlen n st₂ _
        (foldl_process_initInv ctx a data m0 models s hinv)

theorem initial_hypotheses_no_panic {Data M : Type} (ctx : EstCtx Data M)
    (a : Arrsac) (st : ArrsacState) (data : List Data) (fuel : ℕ)
    (hms : 1 ≤ ctx.MIN_SAMPLES) (hn : ctx.MIN_SAMPLES ≤ data.length)
    (hlen : data.length < 2 ^ 32) :
    initial_hypotheses ctx a st data fuel ≠ .error .panic := by
  rw [initial_hypotheses]
  cases hloop : initial_loop ctx a data (min a.block_size data.length) fuel
      a.max_candidate_hypotheses st
      { hypotheses := []
        best_inliers := (a.initial_epsilon.mul
          (.fin (min a.block_size data.length : ℕ))).toUsize
        epsilon := a.initial_epsilon
        delta := a.initial_delta
        positive_likelihood_ratio :=
          (likelihood_ratios a.initial_epsilon a.initial_delta).1
        negative_likelihood_ratio :=
          (likelihood_ratios a.initial_epsilon a.initial_delta).2
        current_delta_estimations := 0
        total_delta_inliers := 0
        best_inlier_indices := []
        found_usable_hypothesis := false } with
  | error er =>
    intro hcon
    simp only [Except.error.injEq] at hcon
    rw [hcon] at hloop
    exact initial_loop_no_panic ctx a data (min a.block_size data.length)
      fuel hms hn hlen a.max_candidate_hypotheses st _
      ⟨by simp, by simp⟩ hloop
  | ok p =>
    obtain ⟨st₂, s⟩ := p
    simp

theorem winnow_loop_no_panic {Data M : Type} (ctx : EstCtx Data M)
    (a : Arrsac) (data : List Data) (fuel : ℕ)
    (hms : 1 ≤ ctx.MIN_SAMPLES) (hn32 : data.length < 2 ^ 32) :
    ∀ (ofuel block : ℕ) (delta : Flt) (hyps : List (M × ℕ))
      (st : ArrsacState),
      hyps ≠ [] →
      PoolInv ctx a data (block * a.block_size) hyps →
      winnow_loop ctx a data fuel ofuel block delta hyps st ≠
        .error .panic
  | 0, block, delta, hyps, st => by simp [winnow_loop]
  | ofuel + 1, block, delta, hyps, st => by
    intro hne hinv
    match hhyps : hyps with
    | [] => exact absurd rfl hne
    | h :: hrest =>
    subst hhyps
    simp only [winnow_loop]
    have hfa := score_samples_forall2 ctx a data a.block_size
      (block * a.block_size) (h :: hrest)
    cases hsc : score_samples ctx a data (h :: hrest)
        (block * a.block_size) a.block_size with
    | mk sc1 flag =>
    rw [hsc] at hfa
    simp only at hfa
    cases hfa with
    | cons hrel hfa' =>
    rename_i b l'
    cases flag with
    | true => simp
    | false =>
      have hinv' := score_samples_inv_false ctx a data a.block_size
        (block * a.block_size) (h :: hrest) hinv (by rw [hsc])
      rw [hsc] at hinv'
      simp only at hinv'
      simp only
      have hb := hinv' b (List.mem_cons_self b l')
      have hgcond1 : ctx.MIN_SAMPLES ≤ (inliers ctx a data b.1).length := by
        rw [← count_inliers_eq_inliers_length]
        have := count_inliers_take_le ctx a data
          (block * a.block_size + a.block_size) b.1
        omega
      have hgcond2 : (inliers ctx a data b.1).length < 2 ^ 32 :=
        lt_of_le_of_lt (inliers_length_le ctx a data b.1) hn32
      have hgcond3 : ∀ j ∈ inliers ctx a data b.1, j < data.length :=
        fun j hj => mem_inliers_lt ctx a data b.1 j hj
      cases hgen : gen_loop ctx a data (inliers ctx a data b.1)
          (likelihood_ratios (epsilon_delta_accept delta b.2
            (block * a.block_size + a.block_size)).1
            (epsilon_delta_accept delta b.2
              (block * a.block_size + a.block_size)).2).1
          (likelihood_ratios (epsilon_delta_accept delta b.2
            (block * a.block_size + a.block_size)).1
            (epsilon_delta_accept delta b.2
              (block * a.block_size + a.block_size)).2).2
          (block * a.block_size + a.block_size) fuel
          a.max_candidate_hypotheses (b :: l') st with
      | error e =>
        intro hcon
        simp only [Except.error.injEq] at hcon
        rw [hcon] at hgen
        exact gen_loop_no_panic ctx a data (inliers ctx a data b.1) _ _ _
          fuel hms hgcond1 hgcond2 hgcond3 a.max_candidate_hypotheses
          (b :: l') st hgen
      | ok p =>
      obtain ⟨hyps2, st₂⟩ := p
      simp only
      obtain ⟨ex, hhyps2, hex⟩ := gen_loop_append ctx a data _ _ _ _ fuel
        a.max_candidate_hypotheses (b :: l') st hyps2 st₂ hgen
      have hinv2 : PoolInv ctx a data (block * a.block_size + a.block_size)
          hyps2 := by
        intro mc hmc
        rw [hhyps2] at hmc
        rcases List.mem_append.mp hmc with hmc | hmc
        · exact hinv' mc hmc
        · exact hex mc hmc
      by_cases hlen : ((sortDesc hyps2).take
          (a.max_candidate_hypotheses >>> block)).length ≤ 1
      · rw [if_pos hlen]
        simp
      · rw [if_neg hlen]
        refine winnow_loop_no_panic ctx a data fuel hms hn32 ofuel
          (block + 1) _ _ st₂ ?_ ?_
        · intro hcon
          rw [hcon] at hlen
          simp at hlen
        · intro mc hmc
          have hmem2 : mc ∈ hyps2 :=
            (mem_sortDesc hyps2 mc).mp (List.mem_of_mem_take hmc)
          have := hinv2 mc hmem2
          rw [Nat.succ_mul]
          exact this

/-- C9 (amended): provided the dataset length is below `2^32` — the range in
which the `len as u32` cast in `populate_samples` is lossless — a
`model_inliers` (or `model`) run entered with at least `MIN_SAMPLES ≥ 1`
observations reaches no panic path: every `populate_samples` call satisfies
its precondition `len ≥ num`, and every sampled-index or subset-index lookup
succeeds. -/
theorem model_inliers_no_panic_amended {Data M : Type} (ctx : EstCtx Data M)
    (a : Arrsac) (st : ArrsacState) (data : List Data) (fuel ofuel : ℕ)
    (hms : 1 ≤ ctx.MIN_SAMPLES) (hn : ctx.MIN_SAMPLES ≤ data.length)
    (hlen : data.length < 2 ^ 32) :
    model_inliers ctx a st data fuel ofuel ≠ .error .panic ∧
    model ctx a st data fuel ofuel ≠ .error .panic := by
  have hmi : model_inliers ctx a st data fuel ofuel ≠ .error .panic := by
    rw [model_inliers, if_neg (by omega)]
    cases hih : initial_hypotheses ctx a st data fuel with
    | error e =>
      intro hcon
      simp only [Except.error.injEq] at hcon
      rw [hcon] at hih
      exact initial_hypotheses_no_panic ctx a st data fuel hms hn hlen hih
    | ok q =>
      obtain ⟨hyps0, e0, d0, st₂⟩ := q
      simp only
      cases hq : (sortDesc hyps0).take a.max_candidate_hypotheses with
      | nil => simp
      | cons hc rest =>
        obtain ⟨h0, c0⟩ := hc
        simp only
        by_cases hchk : (inliers ctx a data h0).length ≤ ctx.MIN_SAMPLES
        · rw [if_pos hchk]; simp
        · rw [if_neg hchk]
          have hpool := initial_hypotheses_pool ctx a st data fuel hyps0 e0
            d0 st₂ hih
          cases hwin : winnow_loop ctx a data fuel ofuel 1 d0
              ((h0, c0) :: rest) st₂ with
          | error e =>
            intro hcon
            simp only [Except.error.injEq] at hcon
            rw [hcon] at hwin
            refine winnow_loop_no_panic ctx a data fuel hms hlen ofuel 1 d0
              ((h0, c0) :: rest) st₂ (by simp) ?_ hwin
            intro mc hmc
            have hmem : mc ∈ hyps0 := (mem_sortDesc hyps0 mc).mp
              (List.mem_of_mem_take (hq ▸ hmc))
            obtain ⟨hms', hcnt⟩ := hpool mc hmem
            refine ⟨hms', ?_⟩
            rw [hcnt, one_mul, count_inliers_take_min]
          | ok p =>
            obtain ⟨pool, st₃⟩ := p
            simp only
            cases max_by_last pool <;> simp
  refine ⟨hmi, ?_⟩
  rw [model]
  cases hmo : model_inliers ctx a st data fuel ofuel with
  | error e =>
    intro hcon
    simp only [Except.error.injEq] at hcon
    rw [hcon] at hmo
    exact hmi hmo
  | ok p => obtain ⟨r, st'⟩ := p; simp

theorem model_inliers_no_panic_amended_witness :
    model_inliers ctxAll cfgSmall st0 [5, 7] 10 10 ≠ .error .panic ∧
    model ctxAll cfgSmall st0 [5, 7] 10 10 ≠ .error .panic :=
  model_inliers_no_panic_amended ctxAll cfgSmall st0 [5, 7] 10 10
    (by decide) (by decide) (by decide)

theorem initial_loop_panic_whole {Data M : Type} (ctx : EstCtx Data M)
    (a : Arrsac) (data : List Data) (m0 fuel n : ℕ) (st : ArrsacState)
    (s : InitState M) (husable : s.found_usable_hypothesis = false)
    (hgen : generate_random_hypotheses ctx st data fuel = .error .panic) :
    initial_loop ctx a data m0 fuel (n + 1) st s = .error .panic := by
  simp only [initial_loop, initial_iter, husable]
  simp only [Bool.false_eq_true, if_false]
  rw [hgen]

/-- C9 is refuted as stated: with `2^32` observations (at least
`MIN_SAMPLES = 1` of them, so the entry precondition holds) the `len as u32`
cast inside `populate_samples` truncates the dataset length to zero, the
threshold computation `len.wrapping_neg() % len` divides by zero, and
`model_inliers` panics. -/
theorem model_inliers_panic_at_pow32 :
    model_inliers ctxAll cfgOne st0 (List.replicate (2 ^ 32) (0 : ℕ)) 1 1 =
      .error .panic ∧
    ctxAll.MIN_SAMPLES ≤ (List.replicate (2 ^ 32) (0 : ℕ)).length := by
  have hlen : (List.replicate (2 ^ 32) (0 : ℕ)).length = 2 ^ 32 :=
    List.length_replicate _ _
  refine ⟨?_, by rw [hlen]; norm_num [ctxAll]⟩
  have hpop : populate_samples st0 ctxAll.MIN_SAMPLES
      (List.replicate (2 ^ 32) (0 : ℕ)).length 1 = .error .panic := by
    rw [hlen, populate_samples]
    norm_num
  have hgen : generate_random_hypotheses ctxAll st0
      (List.replicate (2 ^ 32) (0 : ℕ)) 1 = .error .panic := by
    rw [generate_random_hypotheses, hpop]
  have hinit : initial_hypotheses ctxAll cfgOne st0
      (List.replicate (2 ^ 32) (0 : ℕ)) 1 = .error .panic := by
    rw [initial_hypotheses]
    rw [show cfgOne.max_candidate_hypotheses = 0 + 1 from rfl]
    rw [initial_loop_panic_whole ctxAll cfgOne _ _ 1 0 st0 _ rfl hgen]
  rw [model_inliers, if_neg (by rw [hlen]; norm_num [ctxAll]), hinit]

theorem sample_one_no_outer (len32 threshold : ℕ) (acc : List ℕ) :
    ∀ (rng : Rng) (fuel : ℕ),
      sample_one len32 threshold acc rng fuel ≠ .error .outerFuel
  | _, 0 => by simp [sample_one]
  | rng, fuel + 1 => by
    simp only [sample_one]
    split
    · split
      · exact sample_one_no_outer len32 threshold acc _ fuel
      · simp
    · exact sample_one_no_outer len32 threshold acc _ fuel

theorem populate_loop_no_outer (len32 threshold fuel : ℕ) :
    ∀ (num : ℕ) (acc : List ℕ) (rng : Rng),
      populate_loop len32 threshold fuel acc rng num ≠ .error .outerFuel
  | 0, acc, rng => by simp [populate_loop]
  | num + 1, acc, rng => by
    simp only [populate_loop]
    cases hs : sample_one len32 threshold acc rng fuel with
    | error e =>
      intro hcon
      simp only [Except.error.injEq] at hcon
      rw [hcon] at hs
      exact sample_one_no_outer len32 threshold acc rng fuel hs
    | ok p => exact populate_loop_no_outer len32 threshold fuel num _ _

theorem populate_samples_no_outer (st : ArrsacState) (num len fuel : ℕ) :
    populate_samples st num len fuel ≠ .error .outerFuel := by
  rw [populate_samples]
  by_cases h1 : len < num
  · rw [if_pos h1]; simp
  · rw [if_neg h1]
    by_cases h2 : len % 2 ^ 32 = 0
    · rw [if_pos h2]; simp
    · rw [if_neg h2]
      cases hpl : populate_loop (len % 2 ^ 32)
          ((2 ^ 32 - len % 2 ^ 32) % 2 ^ 32 % (len % 2 ^ 32)) fuel []
          st.rng num with
      | error e =>
        intro hcon
        simp only [hpl, Except.error.injEq] at hcon
        rw [hcon] at hpl
        exact populate_loop_no_outer _ _ fuel num [] st.rng hpl
      | ok p =>
        obtain ⟨samples, rng'⟩ := p
        simp only [hpl]
        simp

theorem generate_random_hypotheses_no_outer {Data M : Type}
    (ctx : EstCtx Data M) (st : ArrsacState) (data : List Data) (fuel : ℕ) :
    generate_random_hypotheses ctx st data fuel ≠ .error .outerFuel := by
  rw [generate_random_hypotheses]
  cases hp : populate_samples st ctx.MIN_SAMPLES data.length fuel with
  | error e =>
    intro hcon
    simp only [Except.error.injEq] at hcon
    rw [hcon] at hp
    exact populate_samples_no_outer st ctx.MIN_SAMPLES data.length fuel hp
  | ok st' =>
    cases hs : select_data data st'.random_samples <;> simp [hs]

theorem generate_random_hypotheses_subset_no_outer {Data M : Type}
    (ctx : EstCtx Data M) (st : ArrsacState) (data : List Data)
    (subset : List ℕ) (fuel : ℕ) :
    generate_random_hypotheses_subset ctx st data subset fuel ≠
      .error .outerFuel := by
  rw [generate_random_hypotheses_subset]
  cases hp : populate_samples st ctx.MIN_SAMPLES subset.length fuel with
  | error e =>
    intro hcon
    simp only [Except.error.injEq] at hcon
    rw [hcon] at hp
    exact populate_samples_no_outer st ctx.MIN_SAMPLES subset.length fuel hp
  | ok st' =>
    cases hs : select_subset_data data subset st'.random_samples <;>
      simp [hs]

theorem gen_loop_no_outer {Data M : Type} (ctx : EstCtx Data M) (a : Arrsac)
    (data : List Data) (inls : List ℕ) (plr nlr : Flt) (stop fuel : ℕ) :
    ∀ (k : ℕ) (hyps : List (M × ℕ)) (st : ArrsacState),
      gen_loop ctx a data inls plr nlr stop fuel k hyps st ≠
        .error .outerFuel
  | 0, hyps, st => by simp [gen_loop]
  | k + 1, hyps, st => by
    simp only [gen_loop]
    cases hg : generate_random_hypotheses_subset ctx st data inls fuel with
    | error e =>
      intro hcon
      simp only [Except.error.injEq] at hcon
      rw [hcon] at hg
      exact generate_random_hypotheses_subset_no_outer ctx st data inls fuel
        hg
    | ok p =>
      exact gen_loop_no_outer ctx a data inls plr nlr stop fuel k _ _

theorem initial_loop_no_outer {Data M : Type} (ctx : EstCtx Data M)
    (a : Arrsac) (data : List Data) (m0 fuel : ℕ) :
    ∀ (n : ℕ) (st : ArrsacState) (s : InitState M),
      initial_loop ctx a data m0 fuel n st s ≠ .error .outerFuel
  | 0, st, s => by simp [initial_loop]
  | n + 1, st, s => by
    simp only [initial_loop, initial_iter]
    cases hg : (if s.found_usable_hypothesis = true then
        generate_random_hypotheses_subset ctx st data s.best_inlier_indices
          fuel
      else generate_random_hypotheses ctx st data fuel) with
    | error e =>
      intro hcon
      simp only [Except.error.injEq] at hcon
      rw [hcon] at hg
      by_cases husable : s.found_usable_hypothesis = true
      · rw [if_pos husable] at hg
        exact generate_random_hypotheses_subset_no_outer ctx st data
          s.best_inlier_indices fuel hg
      · rw [if_neg husable] at hg
        exact generate_random_hypotheses_no_outer ctx st data fuel hg
    | ok p =>
      obtain ⟨models, st₂⟩ := p
      simp only
      exact initial_loop_no_outer ctx a data m0 fuel n st₂ _

theorem initial_hypotheses_no_outer {Data M : Type} (ctx : EstCtx Data M)
    (a : Arrsac) (st : ArrsacState) (data : List Data) (fuel : ℕ) :
    initial_hypotheses ctx a st data fuel ≠ .error .outerFuel := by
  rw [initial_hypotheses]
  cases hloop : initial_loop ctx a data (min a.block_size data.length) fuel
      a.max_candidate_hypotheses st
      { hypotheses := []
        best_inliers := (a.initial_epsilon.mul
          (.fin (min a.block_size data.length : ℕ))).toUsize
        epsilon := a.initial_epsilon
        delta := a.initial_delta
        positive_likelihood_ratio :=
          (likelihood_ratios a.initial_epsilon a.initial_delta).1
        negative_likelihood_ratio :=
          (likelihood_ratios a.initial_epsilon a.initial_delta).2
        current_delta_estimations := 0
        total_delta_inliers := 0
        best_inlier_indices := []
        found_usable_hypothesis := false } with
  | error er =>
    intro hcon
    simp only [Except.error.injEq] at hcon
    rw [hcon] at hloop
    exact initial_loop_no_outer ctx a data (min a.block_size data.length)
      fuel a.max_candidate_hypotheses st _ hloop
  | ok p =>
    obtain ⟨st₂, s⟩ := p
    simp

theorem winnow_loop_fuel_bound {Data M : Type} (ctx : EstCtx Data M)
    (a : Arrsac) (data : List Data) (fuel : ℕ) :
    ∀ (ofuel block : ℕ) (delta : Flt) (hyps : List (M × ℕ))
      (st : ArrsacState),
      data.length < block * a.block_size + ofuel * a.block_size →
      1 ≤ ofuel →
      winnow_loop ctx a data fuel ofuel block delta hyps st ≠
        .error .outerFuel
  | 0, block, delta, hyps, st => by omega
  | ofuel + 1, block, delta, hyps, st => by
    intro hbound _
    simp only [winnow_loop]
    cases hsc : score_samples ctx a data hyps (block * a.block_size)
        a.block_size with
    | mk sc1 flag =>
    cases flag with
    | true => simp
    | false =>
      have hle := score_samples_false_le ctx a data a.block_size
        (block * a.block_size) hyps (by rw [hsc])
      have hbs : 1 ≤ a.block_size := by
        by_contra hcon
        have : a.block_size = 0 := by omega
        rw [this] at hbound
        omega
      have hble : block * a.block_size + a.block_size ≤ data.length := by
        rcases hle with h | h
        · exact h
        · omega
      cases hsc1 : sc1 with
      | nil => simp
      | cons b l' =>
        simp only
        cases hgen : gen_loop ctx a data (inliers ctx a data b.1)
            (likelihood_ratios (epsilon_delta_accept delta b.2
              (block * a.block_size + a.block_size)).1
              (epsilon_delta_accept delta b.2
                (block * a.block_size + a.block_size)).2).1
            (likelihood_ratios (epsilon_delta_accept delta b.2
              (block * a.block_size + a.block_size)).1
              (epsilon_delta_accept delta b.2
                (block * a.block_size + a.block_size)).2).2
            (block * a.block_size + a.block_size) fuel
            a.max_candidate_hypotheses (b :: l') st with
        | error e =>
          intro hcon
          simp only [Except.error.injEq] at hcon
          rw [hcon] at hgen
          exact gen_loop_no_outer ctx a data _ _ _ _ fuel
            a.max_candidate_hypotheses (b :: l') st hgen
        | ok p =>
        obtain ⟨hyps2, st₂⟩ := p
        simp only
        split
        · simp
        · have hof : 1 ≤ ofuel := by
            by_contra hcon
            have hz : ofuel = 0 := by omega
            rw [hz] at hbound
            simp only [Nat.zero_add, one_mul] at hbound
            omega
          refine winnow_loop_fuel_bound ctx a data fuel ofuel (block + 1) _
            _ st₂ ?_ hof
          rw [Nat.succ_mul]
          rw [Nat.succ_mul] at hbound
          omega

/-- C7: the progressive winnowing loop of `model_inliers` terminates on every
finite dataset — it exits within any fuel covering `⌈n / block_size⌉` blocks
(either at the first missing data index or when at most one hypothesis
remains after truncation), so `model_inliers` run with
`n / block_size + 1` outer-loop fuel never exhausts it. -/
theorem model_inliers_terminates {Data M : Type} (ctx : EstCtx Data M)
    (a : Arrsac) (st : ArrsacState) (data : List Data) (fuel : ℕ)
    (hbs : 1 ≤ a.block_size) :
    (∀ (ofuel block : ℕ) (delta : Flt) (hyps : List (M × ℕ))
        (st₂ : ArrsacState),
      data.length < block * a.block_size + ofuel * a.block_size →
      1 ≤ ofuel →
      winnow_loop ctx a data fuel ofuel block delta hyps st₂ ≠
        .error .outerFuel) ∧
    model_inliers ctx a st data fuel
      (data.length / a.block_size + 1) ≠ .error .outerFuel := by
  refine ⟨fun ofuel block delta hyps st₂ hb h1 =>
    winnow_loop_fuel_bound ctx a data fuel ofuel block delta hyps st₂ hb h1,
    ?_⟩
  rw [model_inliers]
  by_cases hlen : data.length < ctx.MIN_SAMPLES
  · rw [if_pos hlen]; simp
  · rw [if_neg hlen]
    cases hih : initial_hypotheses ctx a st data fuel with
    | error e =>
      intro hcon
      simp only [Except.error.injEq] at hcon
      rw [hcon] at hih
      exact initial_hypotheses_no_outer ctx a st data fuel hih
    | ok q =>
      obtain ⟨hyps0, e0, d0, st₂⟩ := q
      simp only
      cases hq : (sortDesc hyps0).take a.max_candidate_hypotheses with
      | nil => simp
      | cons hc rest =>
        obtain ⟨h0, c0⟩ := hc
        simp only
        by_cases hchk : (inliers ctx a data h0).length ≤ ctx.MIN_SAMPLES
        · rw [if_pos hchk]; simp
        · rw [if_neg hchk]
          cases hwin : winnow_loop ctx a data fuel
              (data.length / a.block_size + 1) 1 d0 ((h0, c0) :: rest)
              st₂ with
          | error e =>
            intro hcon
            simp only [Except.error.injEq] at hcon
            rw [hcon] at hwin
            refine winnow_loop_fuel_bound ctx a data fuel
              (data.length / a.block_size + 1) 1 d0 ((h0, c0) :: rest) st₂
              ?_ (Nat.succ_le_succ (Nat.zero_le _)) hwin
            have hdiv : data.length <
                (data.length / a.block_size + 1) * a.block_size := by
              rw [Nat.add_mul, one_mul]
              exact Nat.lt_div_mul_add (by omega)
            linarith [hdiv]
          | ok p =>
            obtain ⟨pool, st₃⟩ := p
            simp only
            cases max_by_last pool <;> simp

theorem model_inliers_terminates_witness :
    model_inliers ctxAll cfgSmall st0 [5, 7] 10
      (([5, 7] : List ℕ).length / cfgSmall.block_size + 1) ≠
      .error .outerFuel :=
  (model_inliers_terminates ctxAll cfgSmall st0 [5, 7] 10 (by decide)).2

/-- C10: the hypothesis-pool invariant.  The initial phase establishes that
every pooled hypothesis carries at least `MIN_SAMPLES` counted inliers and
exactly its inlier count over (hence at most the length of) the evaluated
prefix; per-block scoring preserves the models, never decreases any retained
count, and re-establishes the invariant at the extended prefix (at the whole
dataset when the data is exhausted); and the generation loop only appends
hypotheses that satisfy the invariant at the current prefix. -/
theorem pool_invariant {Data M : Type} (ctx : EstCtx Data M) (a : Arrsac)
    (data : List Data) :
    (∀ (st : ArrsacState) (fuel : ℕ) (hyps : List (M × ℕ)) (e d : Flt)
        (st' : ArrsacState),
      initial_hypotheses ctx a st data fuel = .ok (hyps, e, d, st') →
      PoolInv ctx a data (min a.block_size data.length) hyps ∧
      ∀ mc ∈ hyps, mc.2 ≤ min a.block_size data.length) ∧
    (∀ (k sample : ℕ) (hyps : List (M × ℕ)),
      PoolInv ctx a data sample hyps →
      List.Forall₂ (fun mc mc' : M × ℕ => mc'.1 = mc.1 ∧ mc.2 ≤ mc'.2) hyps
        (score_samples ctx a data hyps sample k).1 ∧
      ((score_samples ctx a data hyps sample k).2 = false →
        PoolInv ctx a data (sample + k)
          (score_samples ctx a data hyps sample k).1 ∧
        ∀ mc ∈ (score_samples ctx a data hyps sample k).1,
          mc.2 ≤ sample + k) ∧
      ((score_samples ctx a data hyps sample k).2 = true →
        ∀ mc ∈ (score_samples ctx a data hyps sample k).1,
          ctx.MIN_SAMPLES ≤ mc.2 ∧ mc.2 = count_inliers ctx a data mc.1 ∧
          mc.2 ≤ data.length)) ∧
    (∀ (inls : List ℕ) (plr nlr : Flt) (stop fuel k : ℕ)
        (hyps : List (M × ℕ)) (st : ArrsacState) (out : List (M × ℕ))
        (st' : ArrsacState),
      PoolInv ctx a data stop hyps →
      gen_loop ctx a data inls plr nlr stop fuel k hyps st =
        .ok (out, st') →
      (∃ ex, out = hyps ++ ex) ∧ PoolInv ctx a data stop out ∧
      ∀ mc ∈ out, mc.2 ≤ stop) := by
  refine ⟨?_, ?_, ?_⟩
  · intro st fuel hyps e d st' h
    have hpool := initial_hypotheses_pool ctx a st data fuel hyps e d st' h
    refine ⟨hpool, ?_⟩
    intro mc hmc
    obtain ⟨_, hcnt⟩ := hpool mc hmc
    calc mc.2 ≤ (data.take (min a.block_size data.length)).length := by
          rw [hcnt]
          exact count_inliers_le_length ctx a _ mc.1
      _ ≤ min a.block_size data.length := by
          rw [List.length_take]
          omega
  · intro k sample hyps hinv
    refine ⟨score_samples_forall2 ctx a data k sample hyps, ?_, ?_⟩
    · intro hfalse
      have hinv' := score_samples_inv_false ctx a data k sample hyps hinv
        hfalse
      refine ⟨hinv', ?_⟩
      intro mc hmc
      obtain ⟨_, hcnt⟩ := hinv' mc hmc
      calc mc.2 ≤ (data.take (sample + k)).length := by
            rw [hcnt]
            exact count_inliers_le_length ctx a _ mc.1
        _ ≤ sample + k := by
            rw [List.length_take]
            omega
    · intro htrue
      intro mc hmc
      obtain ⟨hms, hcnt⟩ := score_samples_inv_true ctx a data k sample hyps
        hinv htrue mc hmc
      exact ⟨hms, hcnt, by
        rw [hcnt]
        exact count_inliers_le_length ctx a data mc.1⟩
  · intro inls plr nlr stop fuel k hyps st out st' hinv hgen
    obtain ⟨ex, hout, hex⟩ := gen_loop_append ctx a data inls plr nlr stop
      fuel k hyps st out st' hgen
    have hinvOut : PoolInv ctx a data stop out := by
      intro mc hmc
      rw [hout] at hmc
      rcases List.mem_append.mp hmc with hmc | hmc
      · exact hinv mc hmc
      · exact hex mc hmc
    refine ⟨⟨ex, hout⟩, hinvOut, ?_⟩
    intro mc hmc
    obtain ⟨_, hcnt⟩ := hinvOut mc hmc
    calc mc.2 ≤ (data.take stop).length := by
          rw [hcnt]
          exact count_inliers_le_length ctx a _ mc.1
      _ ≤ stop := by
          rw [List.length_take]
          omega

theorem pool_invariant_witness :
    (PoolInv ctxAll cfgOne [5, 7] (min cfgOne.block_size
        ([5, 7] : List ℕ).length) [(0, 2)] ∧
      ∀ mc ∈ ([(0, 2)] : List (ℕ × ℕ)),
        mc.2 ≤ min cfgOne.block_size ([5, 7] : List ℕ).length) ∧
    (List.Forall₂ (fun mc mc' : ℕ × ℕ => mc'.1 = mc.1 ∧ mc.2 ≤ mc'.2)
        [(0, 1)] (score_samples ctxAll cfgSmall [5, 7] [(0, 1)] 1 1).1 ∧
      ((score_samples ctxAll cfgSmall [5, 7] [(0, 1)] 1 1).2 = false →
        PoolInv ctxAll cfgSmall [5, 7] (1 + 1)
          (score_samples ctxAll cfgSmall [5, 7] [(0, 1)] 1 1).1 ∧
        ∀ mc ∈ (score_samples ctxAll cfgSmall [5, 7] [(0, 1)] 1 1).1,
          mc.2 ≤ 1 + 1) ∧
      ((score_samples ctxAll cfgSmall [5, 7] [(0, 1)] 1 1).2 = true →
        ∀ mc ∈ (score_samples ctxAll cfgSmall [5, 7] [(0, 1)] 1 1).1,
          ctxAll.MIN_SAMPLES ≤ mc.2 ∧
          mc.2 = count_inliers ctxAll cfgSmall [5, 7] mc.1 ∧
          mc.2 ≤ ([5, 7] : List ℕ).length)) ∧
    ((∃ ex, ([(0, 2), (0, 2)] : List (ℕ × ℕ)) = [(0, 2)] ++ ex) ∧
      PoolInv ctxAll cfgSmall [5, 7] 2 [(0, 2), (0, 2)] ∧
      ∀ mc ∈ ([(0, 2), (0, 2)] : List (ℕ × ℕ)), mc.2 ≤ 2) :=
  ⟨(pool_invariant ctxAll cfgOne [5, 7]).1 st0 5 [(0, 2)] (.fin 1)
      (.fin (mkRat 1 100)) ⟨⟨st0.rng.stream, 1⟩, [0]⟩ (by rfl),
   (pool_invariant ctxAll cfgSmall [5, 7]).2.1 1 1 [(0, 1)]
      (by unfold PoolInv; decide),
   (pool_invariant ctxAll cfgSmall [5, 7]).2.2 [0, 1] (.fin (mkRat 1 100))
      (.fin 1) 2 5 1 [(0, 2)] st0 [(0, 2), (0, 2)]
      ⟨⟨st0.rng.stream, 1⟩, []⟩ (by unfold PoolInv; decide) (by rfl)⟩
